import Mathlib

set_option maxRecDepth 10000

/-!
Verification of the Script Frame Segmentation Engine (src/parsing.py).

Strings are modelled as `List Char`.  Each Python regular-expression
substitution is translated into an explicit scanning function with the same
matching semantics (leftmost match, greedy/lazy quantifiers resolved as the
backtracking engine resolves them on these concrete patterns).  Loops whose
termination is not structural carry an explicit fuel argument whose initial
value provably bounds the number of iterations, so every definition computes
by kernel reduction.
-/

abbrev Str := List Char

def lstr (s : String) : Str := s.toList

/-- Whitespace characters, as Python's `\s` / `str.strip` treat ASCII text. -/
def isSpc (c : Char) : Bool :=
  c == ' ' || c == '\t' || c == '\n' || c == '\r' || c == Char.ofNat 11 || c == Char.ofNat 12

/-- Word characters, as Python's `\b` boundary classifies them (ASCII). -/
def isWordc (c : Char) : Bool := c.isAlphanum || c == '_'

/-- Python `str.strip()`. -/
def stripL (l : Str) : Str := ((l.dropWhile isSpc).reverse.dropWhile isSpc).reverse


/-- `List.span` written with `takeWhile`/`dropWhile`, for easier reasoning. -/
def spanB (p : Char → Bool) (l : Str) : Str × Str := (l.takeWhile p, l.dropWhile p)

/-- Prepend a character to the first piece of a split result. -/
def consHead (c : Char) : List Str → List Str
  | [] => [[c]]
  | h :: t => (c :: h) :: t

/-- Python `s.split('\n\n')`: non-overlapping leftmost occurrences. -/
def splitNN : Str → List Str
  | [] => [[]]
  | '\n' :: '\n' :: rest => [] :: splitNN rest
  | c :: rest => consHead c (splitNN rest)

/-- Python `s.split('\n')`. -/
def splitLines : Str → List Str
  | [] => [[]]
  | '\n' :: rest => [] :: splitLines rest
  | c :: rest => consHead c (splitLines rest)

/-- Python `'\n'.join(xs)`. -/
def joinNL : List Str → Str
  | [] => []
  | [x] => x
  | x :: xs => x ++ '\n' :: joinNL xs

/-- Python `'\n\n'.join(xs)`. -/
def interNN : List Str → Str
  | [] => []
  | [x] => x
  | x :: xs => x ++ '\n' :: '\n' :: interNN xs

/-- Python `re.split(r'\n\n+', s)`: separator is a maximal run of ≥ 2 newlines. -/
def paraSplitF : Nat → Str → List Str
  | _, [] => [[]]
  | 0, l => [l]
  | fuel+1, '\n' :: '\n' :: rest => [] :: paraSplitF fuel (rest.dropWhile (· == '\n'))
  | fuel+1, c :: rest => consHead c (paraSplitF fuel rest)

def paraSplit (l : Str) : List Str := paraSplitF l.length l

/-- Plain prefix test. -/
def isPreB : Str → Str → Bool
  | [], _ => true
  | _ :: _, [] => false
  | p :: ps, c :: cs => p == c && isPreB ps cs

/-- Case-insensitive prefix match against a pre-lowercased pattern,
returning the rest of the input on success. -/
def ciPre : Str → Str → Option Str
  | [], l => some l
  | _ :: _, [] => none
  | p :: ps, c :: cs => if p == c.toLower then ciPre ps cs else none

/-- Substring occurrence test. -/
def containsB (pat : Str) : Str → Bool
  | [] => isPreB pat []
  | c :: t => isPreB pat (c :: t) || containsB pat t

/-- Case-insensitive substring occurrence (pattern pre-lowercased). -/
def containsCI (pat : Str) (l : Str) : Bool := containsB pat (l.map Char.toLower)

/-- The non-whitespace characters of a string, in order. -/
def nonWS (l : Str) : Str := l.filter (fun c => !(isSpc c))

/-- The in-order concatenation of the non-whitespace characters of a frame list. -/
def flatNW (fs : List Str) : Str := (fs.map nonWS).flatten

/-! ## Text normalizer (`clean_text`)

Each `re.sub` of `clean_text` becomes one scanning function.  Scanners that
re-enter themselves on a non-structural suffix take a fuel argument; one unit
of fuel is spent per step and every step consumes at least one character, so
`l.length` fuel never runs out. -/

/-- `s.replace('\r\n', '\n')`. -/
def replCRLF : Str → Str
  | '\r' :: '\n' :: rest => '\n' :: replCRLF rest
  | c :: rest => c :: replCRLF rest
  | [] => []

/-- Split a whitespace run `ws` as `a ++ '\n' :: b` at its last newline
(`none` when it has no newline): how a trailing `\s*$` backtracks to leave
the final line break unconsumed. -/
def splitAtLastNl (ws : Str) : Option (Str × Str) :=
  match spanB (· != '\n') ws.reverse with
  | (_, []) => none
  | (bRev, _ :: aRev) => some (aRev.reverse, '\n' :: bRev.reverse)

/-- Try `^\s{0,3}#+\s.*$` (multiline) at a line start; on success return the
last consumed character and the rest of the input.  `\s` may match a newline,
so the single post-`#` whitespace can swallow the line break and `.*$` then
consumes the following line, exactly as Python does. -/
def matchHeadingAt (l : Str) : Option (Char × Str) :=
  let (ws, r1) := spanB isSpc l
  if 3 < ws.length then none
  else
    let (hs, r2) := spanB (· == '#') r1
    if hs.isEmpty then none
    else
      match r2 with
      | [] => none
      | c :: r3 =>
        if isSpc c then
          let (tl, r4) := spanB (· != '\n') r3
          some (tl.getLastD c, r4)
        else none

/-- Try `^\s*X{3,}\s*$` (multiline) at a line start for rule character `X`. -/
def matchHrAt (x : Char) (l : Str) : Option (Char × Str) :=
  let (_, r1) := spanB isSpc l
  let (ds, r2) := spanB (· == x) r1
  if ds.length < 3 then none
  else
    let (ws2, r3) := spanB isSpc r2
    if r3.isEmpty then some (ws2.getLastD (ds.getLastD x), [])
    else
      match splitAtLastNl ws2 with
      | none => none
      | some (a, rest') => some (a.getLastD (ds.getLastD x), rest' ++ r3)

/-- Try `^\s*<pat>.*$` (multiline, case-insensitive) at a line start, for the
boilerplate-preamble rules. -/
def matchCiLineAt (pat : Str) (l : Str) : Option (Char × Str) :=
  let (_, r1) := spanB isSpc l
  match ciPre pat r1 with
  | none => none
  | some r2 =>
    let (tl, r3) := spanB (· != '\n') r2
    some (tl.getLastD ((r1.take pat.length).getLastD 'x'), r3)

/-- Generic engine for a line-anchored multiline substitution: scan the text
keeping the previously emitted character (a position is a line start exactly
when there is no previous character or it is a newline), try the matcher at
every line start, and drop whatever it consumes. -/
def lineSubF (m : Str → Option (Char × Str)) : Nat → Option Char → Str → Str
  | _, _, [] => []
  | 0, _, l => l
  | fuel+1, prev, c :: rest =>
    if prev = none ∨ prev = some '\n' then
      match m (c :: rest) with
      | some (lastc, r) => lineSubF m fuel (some lastc) r
      | none => c :: lineSubF m fuel (some c) rest
    else c :: lineSubF m fuel (some c) rest

def lineSub (m : Str → Option (Char × Str)) (l : Str) : Str := lineSubF m l.length none l

/-- Lazy search for `.*?C\s*\*\*` (no newline in `.*?`): used by the
bold-direction rules `\*\*\s*\(.*?\)\s*\*\*` and `\*\*\s*\[.*?\]\s*\*\*`.
On failure of the tail after a candidate close, the lazy group grows past it. -/
def bdClose (close : Char) : Str → Option Str
  | [] => none
  | c :: rest =>
    if c == '\n' then none
    else if c == close then
      match (spanB isSpc rest).2 with
      | '*' :: '*' :: r' => some r'
      | _ => bdClose close rest
    else bdClose close rest

/-- One bold-direction substitution (`openc`/`close` are `(`/`)` or `[`/`]`). -/
def subBoldDirF (openc close : Char) : Nat → Str → Str
  | _, [] => []
  | 0, l => l
  | fuel+1, '*' :: '*' :: rest =>
    (match (match (spanB isSpc rest).2 with
            | o :: r3 => if o == openc then bdClose close r3 else none
            | [] => none) with
     | some r' => subBoldDirF openc close fuel r'
     | none => '*' :: subBoldDirF openc close fuel ('*' :: rest))
  | fuel+1, c :: rest => c :: subBoldDirF openc close fuel rest

def subBoldDir (openc close : Char) (l : Str) : Str := subBoldDirF openc close l.length l

/-- Closing search for `(?<!\*)\*(?!\*)([^*]{0,200}?)(?<!\*)\*(?!\*)`:
the first `*` at a distance of 1..200 non-`*` characters, provided the
character after it is not `*`.  A zero-length body fails the inner
lookbehind (the previous character would be the opening `*`). -/
def itFind : Str → Nat → Option Str
  | [], _ => none
  | '*' :: rest, n =>
    if n == 0 then none
    else
      match rest with
      | '*' :: _ => none
      | _ => some rest
  | _ :: rest, n => if 200 ≤ n then none else itFind rest (n+1)

/-- The single-asterisk italic-direction substitution (removes the whole
span, body included). -/
def subItalicsF : Nat → Option Char → Str → Str
  | _, _, [] => []
  | 0, _, l => l
  | fuel+1, prev, '*' :: rest =>
    if prev ≠ some '*' ∧ rest.head? ≠ some '*' then
      match itFind rest 0 with
      | some r' => subItalicsF fuel (some '*') r'
      | none => '*' :: subItalicsF fuel (some '*') rest
    else '*' :: subItalicsF fuel (some '*') rest
  | fuel+1, _, c :: rest => c :: subItalicsF fuel (some c) rest

def subItalics (l : Str) : Str := subItalicsF l.length none l

/-- Closing search for `\([^)]{0,120}?\)` / `\[[^\]]{0,120}?\]`: first close
within 120 body characters (the body may span newlines). -/
def parenFind (close : Char) : Str → Nat → Option Str
  | [], _ => none
  | c :: rest, n =>
    if c == close then some rest
    else if 120 ≤ n then none
    else parenFind close rest (n+1)

/-- The short plain parenthetical/bracketed-aside substitution. -/
def subParenF (openc close : Char) : Nat → Str → Str
  | _, [] => []
  | 0, l => l
  | fuel+1, c :: rest =>
    if c == openc then
      match parenFind close rest 0 with
      | some r' => subParenF openc close fuel r'
      | none => c :: subParenF openc close fuel rest
    else c :: subParenF openc close fuel rest

def subParen (openc close : Char) (l : Str) : Str := subParenF openc close l.length l

def nonWordOrEnd : Str → Bool
  | [] => true
  | c :: _ => !(isWordc c)

/-- Tail of the `instructor notes?:?` alternative after `instructor note`:
an optional `s` is committed when present (skipping it cannot help, since the
trailing `\b` would then sit between two word characters), after which the
trailing `\b` holds exactly when the next character is absent or non-word
(a `:` consumed by `:?` leads to the same full-line match region). -/
def instrTail (r : Str) : Bool :=
  nonWordOrEnd
    (match r with
     | c :: rest => if c.toLower == 's' then rest else c :: rest
     | [] => [])

/-- The alternation of the instructor/meta-phrase rule, with its trailing
word boundary. -/
def metaAlt (l : Str) : Bool :=
  (match ciPre (lstr "transitioning from previous slide") l with
   | some r => nonWordOrEnd r
   | none => false) ||
  (match ciPre (lstr "wait for questions") l with
   | some r => nonWordOrEnd r
   | none => false) ||
  (match ciPre (lstr "instructor note") l with
   | some r => instrTail r
   | none => false) ||
  (match ciPre (lstr "slide transition") l with
   | some r => nonWordOrEnd r
   | none => false) ||
  (match ciPre (lstr "pause here") l with
   | some r => nonWordOrEnd r
   | none => false)

/-- `(?i)\b(...)\b.*` — remove a meta phrase and the rest of its line.
The leading `\b` holds when the previous character is absent or non-word
(every alternative begins with a letter). -/
def subMetaF : Nat → Option Char → Str → Str
  | _, _, [] => []
  | 0, _, l => l
  | fuel+1, prev, c :: rest =>
    if ((match prev with | none => true | some p => !(isWordc p)) && metaAlt (c :: rest)) then
      match spanB (· != '\n') (c :: rest) with
      | (tl, r) => subMetaF fuel (some (tl.getLastD c)) r
    else c :: subMetaF fuel (some c) rest

def subMeta (l : Str) : Str := subMetaF l.length none l

/-- `re.sub(r'\n{2,}', '\n\n', s)`: `n` counts the newlines of the current
run already emitted; from the third one on they are dropped. -/
def collGo : Nat → Str → Str
  | _, [] => []
  | n, '\n' :: rest => if 2 ≤ n then collGo (n+1) rest else '\n' :: collGo (n+1) rest
  | _, c :: rest => c :: collGo 0 rest

/-- `here's a comprehensive speaking script` (apostrophe spelled out). -/
def patHeres : Str :=
  lstr "here" ++ Char.ofNat 39 :: lstr "s a comprehensive speaking script"

/-- `clean_text(s)` from src/parsing.py: the Text Normalizer. -/
def clean_text (l : Str) : Str :=
  let s0 := stripL (replCRLF l)
  let s1 := lineSub matchHeadingAt s0
  let s2 := lineSub (matchHrAt '-') s1
  let s3 := lineSub (matchHrAt '*') s2
  let s4 := subBoldDir '(' ')' s3
  let s5 := subBoldDir '[' ']' s4
  let s6 := subItalics s5
  let s7 := subParen '(' ')' s6
  let s8 := subParen '[' ']' s7
  let s9 := subMeta s8
  let s10 := lineSub (matchCiLineAt (lstr "certainly!")) s9
  let s11 := lineSub (matchCiLineAt patHeres) s10
  let s12 := lineSub (matchCiLineAt (lstr "this comprehensive script should facilitate")) s11
  let s13 := stripL (collGo 0 s12)
  s13.filter (fun c => c != '*')

/-! ## Reconciliation engine (`split_to_target_count`, `merge_to_target_count`) -/

/-- Index of the first entry whose length is `better` than every earlier one;
`better a b` reads "length `a` beats incumbent `b`". -/
def argAux (better : Nat → Nat → Bool) : List Str → Nat → Nat → Nat → Nat
  | [], _, bi, _ => bi
  | f :: rest, i, bi, bl =>
    if better f.length bl then argAux better rest (i+1) i f.length
    else argAux better rest (i+1) bi bl

/-- Python `max(range(len(frames)), key=lambda i: len(frames[i]))`:
first index of maximal length. -/
def argmaxLen : List Str → Nat
  | [] => 0
  | f :: rest => argAux (fun a b => decide (b < a)) rest 1 0 f.length

/-- Python `min(range(len(frames)), key=lambda i: len(frames[i]))`:
first index of minimal length. -/
def argminLen : List Str → Nat
  | [] => 0
  | f :: rest => argAux (fun a b => decide (a < b)) rest 1 0 f.length

/-- `[p.strip() for p in f.split('\n\n') if p.strip()]` — the paragraph units
of a frame. -/
def paraParts (f : Str) : List Str :=
  ((splitNN f).map stripL).filter (fun p => !p.isEmpty)

/-- Loop of `split_to_target_count`; `none` models the `ValueError` Python
raises from `max` over an empty range.  One fuel unit per iteration; each
iteration grows the list by one, so `target + 1` fuel can never run out
before the loop exits. -/
def splitGoF : Nat → List Str → Nat → Option (List Str)
  | fuel, frames, target =>
    if target ≤ frames.length then some (frames.take target)
    else
      match fuel, frames with
      | _, [] => none
      | 0, _ => none
      | fuel'+1, _ =>
        let i := argmaxLen frames
        let parts := paraParts (frames.getD i [])
        if parts.length ≤ 1 then some (frames.take target)
        else
          let mid := parts.length / 2
          splitGoF fuel'
            (frames.take i ++ [interNN (parts.take mid), interNN (parts.drop mid)]
              ++ frames.drop (i+1)) target

/-- `split_to_target_count(frames, target)` from src/parsing.py. -/
def split_to_target_count (frames : List Str) (target : Nat) : Option (List Str) :=
  splitGoF (target+1) frames target

/-- Loop of `merge_to_target_count`.  When the list has a single element and
the target is 0, Python's `frames[smallest_idx - 1]` aliases `frames[-1]` to
that same element and the subsequent `pop` leaves the empty list. -/
def mergeGoF : Nat → List Str → Nat → Option (List Str)
  | fuel, frames, target =>
    if frames.length ≤ target then some frames
    else
      match fuel, frames with
      | _, [] => none
      | 0, _ => none
      | fuel'+1, _ =>
        let si := argminLen frames
        if si + 1 < frames.length then
          mergeGoF fuel'
            (frames.take si ++ [frames.getD si [] ++ '\n' :: '\n' :: frames.getD (si+1) []]
              ++ frames.drop (si+2)) target
        else if frames.length = 1 then
          mergeGoF fuel' [] target
        else
          mergeGoF fuel'
            (frames.take (si-1) ++ [frames.getD (si-1) [] ++ '\n' :: '\n' :: frames.getD si []]
              ++ frames.drop (si+1)) target

/-- `merge_to_target_count(frames, target)` from src/parsing.py. -/
def merge_to_target_count (frames : List Str) (target : Nat) : Option (List Str) :=
  mergeGoF frames.length frames target

/-- The declared-count dispatch of `extract_frames_from_section`
(lines 155–163): `if declared_count:` treats both `None` and `0` as absent. -/
def reconcile (cleaned : List Str) (declared : Option Nat) : Option (List Str) :=
  match declared with
  | none => some cleaned
  | some 0 => some cleaned
  | some (k+1) =>
    if cleaned.length = k + 1 then some cleaned
    else if cleaned.length < k + 1 then split_to_target_count cleaned (k+1)
    else merge_to_target_count cleaned (k+1)

/-! ## Boundary detector (`STRONG_FRAME_MARKER`, `FRAME_CONTINUED_PAT`) -/

/-- Tail `\s*\d+\]\s*\*\*\s*$` common to both strong-marker alternatives. -/
def strongDigitsClose (l : Str) : Bool :=
  let (_, r1) := spanB isSpc l
  let (ds, r2) := spanB (fun c => c.isDigit) r1
  if ds.isEmpty then false
  else
    match r2 with
    | ']' :: r3 =>
      (match (spanB isSpc r3).2 with
       | '*' :: '*' :: r5 => (spanB isSpc r5).2.isEmpty
       | _ => false)
    | _ => false

/-- `STRONG_FRAME_MARKER` anchored at the start of a newline-free line:
`^\s*\*\*\s*\[(?:Click to )?Frame\s*\d+\]\s*\*\*\s*$` or
`^\s*\*\*\s*\[Advance to Frame\s*\d+\]\s*\*\*\s*$`, case-insensitive. -/
def strongMatch (l : Str) : Bool :=
  let (_, r1) := spanB isSpc l
  match r1 with
  | '*' :: '*' :: r2 =>
    (match (spanB isSpc r2).2 with
     | '[' :: r4 =>
       (match ciPre (lstr "advance to frame") r4 with
        | some r5 => strongDigitsClose r5
        | none =>
          let r4' := match ciPre (lstr "click to ") r4 with
                     | some r => r
                     | none => r4
          match ciPre (lstr "frame") r4' with
          | some r5 => strongDigitsClose r5
          | none => false)
     | _ => false)
  | _ => false

/-- `is_strong_frame_boundary(line)` from src/parsing.py. -/
def is_strong_frame_boundary (line : Str) : Bool := strongMatch (stripL line)

/-- Try `FRAME_CONTINUED_PAT` = `^\s*\*\*\s*\[Frame\s*\d+\s+Continued\]\s*\*\*\s*$`
(multiline, case-insensitive) at a line start. -/
def matchContinuedAt (l : Str) : Option (Char × Str) :=
  match (spanB isSpc l).2 with
  | '*' :: '*' :: b =>
    (match ciPre (lstr "[frame") (spanB isSpc b).2 with
     | none => none
     | some d =>
       let (ds, f) := spanB (fun c => c.isDigit) (spanB isSpc d).2
       if ds.isEmpty then none
       else
         let (ws3, g) := spanB isSpc f
         if ws3.isEmpty then none
         else
           match ciPre (lstr "continued]") g with
           | none => none
           | some h =>
             (match (spanB isSpc h).2 with
              | '*' :: '*' :: j =>
                let (ws5, k) := spanB isSpc j
                if k.isEmpty then some ('*', [])
                else
                  match splitAtLastNl ws5 with
                  | none => none
                  | some (a, rest') => some (a.getLastD '*', rest' ++ k)
              | _ => none))
  | _ => none

/-- `remove_frame_continued_markers(text)` from src/parsing.py. -/
def remove_frame_continued_markers (l : Str) : Str := lineSub matchContinuedAt l

/-! ## Declared-count extractor (`FRAMES_COUNT_IN_SECTION`) -/

def natOfDigits (ds : Str) : Nat := ds.foldl (fun a c => a * 10 + (c.toNat - 48)) 0

/-- Try `\*\s*\((\d+)\s+frames\)\s*\*` (case-insensitive) at this position. -/
def matchFCIS (l : Str) : Option Nat :=
  match l with
  | '*' :: r1 =>
    (match (spanB isSpc r1).2 with
     | '(' :: r3 =>
       let (ds, r4) := spanB (fun c => c.isDigit) r3
       if ds.isEmpty then none
       else
         let (ws, r5) := spanB isSpc r4
         if ws.isEmpty then none
         else
           match ciPre (lstr "frames") r5 with
           | some (')' :: r7) =>
             (match (spanB isSpc r7).2 with
              | '*' :: _ => some (natOfDigits ds)
              | _ => none)
           | _ => none
     | _ => none)
  | _ => none

def fcisGoF : Nat → Str → Option Nat
  | 0, l => matchFCIS l
  | fuel+1, l =>
    match matchFCIS l with
    | some k => some k
    | none =>
      match l with
      | [] => none
      | _ :: rest => fcisGoF fuel rest

/-- `FRAMES_COUNT_IN_SECTION.search(body)`: value of the first (leftmost)
count annotation, if any. -/
def framesCountInSection (l : Str) : Option Nat := fcisGoF l.length l

/-! ## Frame extraction (`extract_frames_from_section`) -/

/-- Indices of the lines that are strong frame boundaries. -/
def markerIdxGo : List Str → Nat → List Nat
  | [], _ => []
  | line :: rest, i =>
    if is_strong_frame_boundary line then i :: markerIdxGo rest (i+1)
    else markerIdxGo rest (i+1)

/-- The nonempty stripped inter-marker chunks, in order. -/
def chunksGo (lines : List Str) (total : Nat) : List Nat → List Str
  | [] => []
  | mi :: rest =>
    let endd := match rest with
                | m2 :: _ => m2
                | [] => total
    let chunk := stripL (joinNL ((lines.take endd).drop (mi+1)))
    (if chunk.isEmpty then [] else [chunk]) ++ chunksGo lines total rest

/-- Leading content before the first marker, kept only when substantial. -/
def initialFrames (lines : List Str) (mis : List Nat) : List Str :=
  match mis with
  | m0 :: _ =>
    if 0 < m0 then
      let ini := stripL (joinNL (lines.take m0))
      if 100 < ini.length then [ini] else []
    else []
  | [] => []

/-- The raw frames of the marker-based path (before the length-50 filter). -/
def rawFrames (body1 : Str) : List Str :=
  let lines := splitLines body1
  let mis := markerIdxGo lines 0
  initialFrames lines mis ++ chunksGo lines lines.length mis

/-- `[clean_text(f) for f in frames if len(f.strip()) > 50]`. -/
def cleanedFrames (body1 : Str) : List Str :=
  ((rawFrames body1).filter (fun f => 50 < (stripL f).length)).map clean_text

/-! ## Fallback segmenter (`fallback_split`, `group_paragraphs_evenly`) -/

/-- Try the horizontal-rule separator `\n\s*-{3,}\s*\n` at this position. -/
def matchHrSep (l : Str) : Option Str :=
  match l with
  | '\n' :: r1 =>
    let (ds, r3) := spanB (· == '-') (spanB isSpc r1).2
    if ds.length < 3 then none
    else
      let (ws2, r4) := spanB isSpc r3
      match splitAtLastNl ws2 with
      | some (_, nlrest) => some (nlrest.drop 1 ++ r4)
      | none => none
  | _ => none

def hrSplitF : Nat → Str → List Str
  | _, [] => [[]]
  | 0, l => [l]
  | fuel+1, c :: rest =>
    match matchHrSep (c :: rest) with
    | some r' => [] :: hrSplitF fuel r'
    | none => consHead c (hrSplitF fuel rest)

/-- `re.split(r'\n\s*-{3,}\s*\n', body)`. -/
def hrSplit (l : Str) : List Str := hrSplitF l.length l

/-- `[p.strip() for p in re.split(r'\n\n+', body) if len(p.strip()) > 100]`. -/
def substParas (body : Str) : List Str :=
  ((paraSplit body).map stripL).filter (fun p => 100 < p.length)

/-- Bucket builder of `group_paragraphs_evenly`: the first `rem` buckets get
one extra paragraph. -/
def bucketsGo (per : Nat) : Nat → Nat → List Str → List Str
  | _, 0, _ => []
  | rem, n+1, ps =>
    let c := per + (if 0 < rem then 1 else 0)
    clean_text (interNN (ps.take c)) :: bucketsGo per (rem - 1) n (ps.drop c)

/-- `group_paragraphs_evenly(paragraphs, target_count)` from src/parsing.py. -/
def group_paragraphs_evenly (paragraphs : List Str) (target : Nat) : List Str :=
  match target with
  | 0 => [interNN paragraphs]
  | t+1 =>
    if paragraphs.length ≤ t+1 then paragraphs.map clean_text
    else bucketsGo (paragraphs.length / (t+1)) (paragraphs.length % (t+1)) (t+1) paragraphs

/-- `fallback_split(body, declared_count)` from src/parsing.py
(`if declared_count:` treats `None` and `0` alike). -/
def fallback_split (body : Str) (declared : Option Nat) : List Str :=
  let chunks := ((hrSplit body).map stripL).filter (fun c => !c.isEmpty)
  match declared with
  | some (k+1) =>
    if chunks.length = k+1 then chunks.map clean_text
    else
      let paragraphs := substParas body
      if paragraphs.length ≤ k+1 then paragraphs.map clean_text
      else group_paragraphs_evenly paragraphs (k+1)
  | _ => (substParas body).map clean_text

/-- `extract_frames_from_section(header, body)` from src/parsing.py (the
`header` argument is unused by the Python function's logic). -/
def extract_frames_from_section (body : Str) : Option (List Str) :=
  let body1 := remove_frame_continued_markers body
  let declared := framesCountInSection body1
  let mis := markerIdxGo (splitLines body1) 0
  match mis with
  | [] => some (fallback_split body1 declared)
  | _ :: _ => reconcile (cleanedFrames body1) declared

/-! ## Pipeline driver (`split_into_sections`, `parse_script_file`) -/

/-- Try `SECTION_HEADER` = `(?m)^\s*##\s+Section\s+\d+[:\s].*$`
(case-insensitive) at a line start; returns (matched text, last consumed
character, rest). -/
def matchSectionHeaderAt (l : Str) : Option (Str × Char × Str) :=
  let (ws0, r1) := spanB isSpc l
  match r1 with
  | '#' :: '#' :: r2 =>
    let (ws2, r3) := spanB isSpc r2
    if ws2.isEmpty then none
    else
      match ciPre (lstr "section") r3 with
      | none => none
      | some r4 =>
        let (ws3, r5) := spanB isSpc r4
        if ws3.isEmpty then none
        else
          let (ds, r6) := spanB (fun c => c.isDigit) r5
          if ds.isEmpty then none
          else
            match r6 with
            | c :: r7 =>
              if c == ':' || isSpc c then
                let (tl, r8) := spanB (· != '\n') r7
                some (ws0 ++ '#' :: '#' :: ws2 ++ (r3.take 7) ++ ws3 ++ ds ++ c :: tl,
                      tl.getLastD c, r8)
              else none
            | [] => none
  | _ => none

/-- `finditer`-style scan: text before the first header, then
(header match, raw body up to the next header) pairs. -/
def sectGoF : Nat → Option Char → Str → Str × List (Str × Str)
  | _, _, [] => ([], [])
  | 0, _, l => (l, [])
  | fuel+1, prev, c :: rest =>
    if prev = none ∨ prev = some '\n' then
      match matchSectionHeaderAt (c :: rest) with
      | some (matched, lastc, r) =>
        let (pre, secs) := sectGoF fuel (some lastc) r
        ([], (matched, pre) :: secs)
      | none =>
        let (pre, secs) := sectGoF fuel (some c) rest
        (c :: pre, secs)
    else
      let (pre, secs) := sectGoF fuel (some c) rest
      (c :: pre, secs)

/-- `split_into_sections(text)` from src/parsing.py. -/
def split_into_sections (text : Str) : List (Option Str × Str) :=
  match (sectGoF text.length none text).2 with
  | [] => [(none, text)]
  | secs => secs.map (fun hb => (some (stripL hb.1), stripL hb.2))

/-- Post-processing of line 274: an empty-after-strip frame becomes `"_"`. -/
def postProcessFrames (frames : List Str) : List Str :=
  frames.map (fun f => if (stripL f).isEmpty then ['_'] else f)

/-- Whether the driver records a declared/detected mismatch warning. -/
def sectionWarned (declared : Option Nat) (n : Nat) : Bool :=
  match declared with
  | some (k+1) => decide (n ≠ k+1)
  | _ => false

/-- Per-section record produced by `parse_script_file`. -/
structure SectionRec where
  header : Option Str
  declared_frames : Option Nat
  num_frames_detected : Nat
  frames : List Str
  warned : Bool
deriving DecidableEq

def driveSections : List (Option Str × Str) → Option (List SectionRec)
  | [] => some []
  | hb :: rest =>
    match extract_frames_from_section hb.2 with
    | none => none
    | some fs0 =>
      let frames := postProcessFrames fs0
      let declared := framesCountInSection hb.2
      match driveSections rest with
      | none => none
      | some recs =>
        some ({ header := hb.1, declared_frames := declared,
                num_frames_detected := frames.length, frames := frames,
                warned := sectionWarned declared frames.length } :: recs)

/-- The pure part of `parse_script_file` (file I/O and printing aside):
per-section records in document order; `none` models an uncaught Python
exception. -/
def parse_script_file (text : Str) : Option (List SectionRec) :=
  driveSections (split_into_sections text)

/-! ## Helper lemmas -/

theorem consHead_ne_nil (c : Char) (xs : List Str) : consHead c xs ≠ [] := by
  cases xs <;> simp [consHead]

theorem splitNN_ne_nil : ∀ l, splitNN l ≠ [] := by
  intro l
  induction l using splitNN.induct with
  | case1 => simp [splitNN]
  | case2 rest ih => simp [splitNN]
  | case3 c rest h ih => rw [splitNN.eq_3 c rest h]; exact consHead_ne_nil c _

theorem interNN_nil_cons (xs : List Str) (h : xs ≠ []) :
    interNN ([] :: xs) = '\n' :: '\n' :: interNN xs := by
  cases xs with
  | nil => exact absurd rfl h
  | cons a b => rfl

theorem interNN_consHead (c : Char) (xs : List Str) (h : xs ≠ []) :
    interNN (consHead c xs) = c :: interNN xs := by
  cases xs with
  | nil => exact absurd rfl h
  | cons a b => cases b <;> simp [consHead, interNN]

theorem interNN_splitNN : ∀ l, interNN (splitNN l) = l := by
  intro l
  induction l using splitNN.induct with
  | case1 => simp [splitNN, interNN]
  | case2 rest ih =>
    show interNN ([] :: splitNN rest) = _
    rw [interNN_nil_cons _ (splitNN_ne_nil rest), ih]
  | case3 c rest h ih =>
    rw [splitNN.eq_3 c rest h, interNN_consHead c _ (splitNN_ne_nil rest), ih]

theorem nonWS_nil : nonWS [] = [] := rfl

theorem nonWS_cons (c : Char) (l : Str) :
    nonWS (c :: l) = if isSpc c then nonWS l else c :: nonWS l := by
  simp only [nonWS, List.filter_cons]
  cases h : isSpc c <;> simp [h]

theorem nonWS_append (a b : Str) : nonWS (a ++ b) = nonWS a ++ nonWS b := by
  simp [nonWS, List.filter_append]

theorem flatNW_cons (x : Str) (xs : List Str) : flatNW (x :: xs) = nonWS x ++ flatNW xs := by
  simp [flatNW]

theorem flatNW_append (as bs : List Str) : flatNW (as ++ bs) = flatNW as ++ flatNW bs := by
  simp [flatNW]

theorem nonWS_interNN : ∀ xs, nonWS (interNN xs) = flatNW xs := by
  intro xs
  induction xs with
  | nil => simp [interNN, nonWS, flatNW]
  | cons a b ih =>
    cases b with
    | nil => simp [interNN, flatNW, nonWS]
    | cons x y =>
      show nonWS (a ++ '\n' :: '\n' :: interNN (x :: y)) = _
      rw [nonWS_append, nonWS_cons, nonWS_cons]
      simp only [show isSpc '\n' = true from rfl, if_pos]
      rw [ih]
      simp [flatNW_cons, List.append_assoc]

theorem nonWS_dropWhile (l : Str) : nonWS (l.dropWhile isSpc) = nonWS l := by
  induction l with
  | nil => rfl
  | cons c t ih =>
    rw [List.dropWhile_cons]
    cases h : isSpc c with
    | true => simp only [h, if_pos]; rw [ih, nonWS_cons, if_pos h]
    | false => simp [h]

theorem nonWS_reverse (l : Str) : nonWS l.reverse = (nonWS l).reverse := by
  simp [nonWS, List.filter_reverse]

theorem nonWS_stripL (l : Str) : nonWS (stripL l) = nonWS l := by
  unfold stripL
  rw [nonWS_reverse, nonWS_dropWhile, nonWS_reverse, List.reverse_reverse, nonWS_dropWhile]

theorem nonWS_of_stripL_nil (l : Str) (h : stripL l = []) : nonWS l = [] := by
  rw [← nonWS_stripL, h, nonWS_nil]

theorem flatNW_map_stripL : ∀ xs : List Str, flatNW (xs.map stripL) = flatNW xs := by
  intro xs
  induction xs with
  | nil => rfl
  | cons a b ih => simp only [List.map_cons, flatNW_cons, nonWS_stripL, ih]

theorem flatNW_filter_isEmpty : ∀ xs : List Str,
    flatNW (xs.filter (fun p => !p.isEmpty)) = flatNW xs := by
  intro xs
  induction xs with
  | nil => rfl
  | cons a b ih =>
    rw [List.filter_cons]
    cases h : !a.isEmpty with
    | true => simp only [h, if_pos]; rw [flatNW_cons, flatNW_cons, ih]
    | false =>
      have ha : a = [] := by
        cases a with
        | nil => rfl
        | cons x y => simp at h
      simp only [h, ha]
      rw [flatNW_cons]
      simp [nonWS, ih]

theorem flatNW_paraParts (f : Str) : flatNW (paraParts f) = nonWS f := by
  unfold paraParts
  rw [flatNW_filter_isEmpty, flatNW_map_stripL]
  rw [show nonWS f = nonWS (interNN (splitNN f)) by rw [interNN_splitNN]]
  rw [nonWS_interNN]

theorem list_decomp : ∀ (fs : List Str) (i : Nat), i < fs.length →
    fs.take i ++ fs.getD i [] :: fs.drop (i+1) = fs := by
  intro fs
  induction fs with
  | nil => intro i h; simp at h
  | cons a t ih =>
    intro i h
    cases i with
    | zero => simp
    | succ j =>
      simp only [List.take_succ_cons, List.getD_cons_succ, List.drop_succ_cons, List.cons_append]
      rw [ih j (by simpa using h)]

theorem list_decomp2 : ∀ (fs : List Str) (i : Nat), i + 1 < fs.length →
    fs.take i ++ fs.getD i [] :: fs.getD (i+1) [] :: fs.drop (i+2) = fs := by
  intro fs
  induction fs with
  | nil => intro i h; simp at h
  | cons a t ih =>
    intro i h
    cases i with
    | zero =>
      cases t with
      | nil => simp at h
      | cons b u => simp
    | succ j =>
      simp only [List.take_succ_cons, List.getD_cons_succ, List.drop_succ_cons, List.cons_append]
      rw [ih j (by simpa using h)]

theorem argAux_lt (better : Nat → Nat → Bool) :
    ∀ (rest : List Str) (i bi bl : Nat), bi < i →
      argAux better rest i bi bl < i + rest.length := by
  intro rest
  induction rest with
  | nil =>
    intro i bi bl h
    have e : argAux better [] i bi bl = bi := rfl
    rw [e]
    simp only [List.length_nil]
    omega
  | cons f t ih =>
    intro i bi bl h
    have e : argAux better (f :: t) i bi bl =
        if better f.length bl then argAux better t (i+1) i f.length
        else argAux better t (i+1) bi bl := rfl
    rw [e]
    by_cases hb : better f.length bl = true
    · rw [if_pos hb]
      have := ih (i+1) i f.length (Nat.lt_succ_self i)
      simp only [List.length_cons]
      omega
    · rw [if_neg hb]
      have := ih (i+1) bi bl (by omega)
      simp only [List.length_cons]
      omega

theorem argmaxLen_lt (fs : List Str) (h : fs ≠ []) : argmaxLen fs < fs.length := by
  cases fs with
  | nil => exact absurd rfl h
  | cons f rest =>
    rw [argmaxLen]
    have := argAux_lt (fun a b => decide (b < a)) rest 1 0 f.length Nat.one_pos
    simpa [Nat.add_comm] using this

theorem argminLen_lt (fs : List Str) (h : fs ≠ []) : argminLen fs < fs.length := by
  cases fs with
  | nil => exact absurd rfl h
  | cons f rest =>
    rw [argminLen]
    have := argAux_lt (fun a b => decide (a < b)) rest 1 0 f.length Nat.one_pos
    simpa [Nat.add_comm] using this

/-! ## Reconciliation lemmas -/

theorem nonWS_merge (a b : Str) : nonWS (a ++ '\n' :: '\n' :: b) = nonWS a ++ nonWS b := by
  rw [nonWS_append, nonWS_cons, nonWS_cons]
  simp [show isSpc '\n' = true from rfl]

theorem length_splice (fs : List Str) (i : Nat) (h : i < fs.length) (x y : Str) :
    (fs.take i ++ [x, y] ++ fs.drop (i+1)).length = fs.length + 1 := by
  simp only [List.length_append, List.length_take, List.length_drop, List.length_cons,
    List.length_nil]
  omega

theorem length_splice1 (fs : List Str) (i : Nat) (h : i + 1 < fs.length) (x : Str) :
    (fs.take i ++ [x] ++ fs.drop (i+2)).length = fs.length - 1 := by
  simp only [List.length_append, List.length_take, List.length_drop, List.length_cons,
    List.length_nil]
  omega

theorem flatNW_splice (fs : List Str) (i : Nat) (h : i < fs.length) (x y : Str)
    (hxy : nonWS x ++ nonWS y = nonWS (fs.getD i [])) :
    flatNW (fs.take i ++ [x, y] ++ fs.drop (i+1)) = flatNW fs := by
  conv_rhs => rw [← list_decomp fs i h]
  simp only [flatNW_append, flatNW_cons]
  have hz : flatNW ([] : List Str) = [] := rfl
  rw [hz, ← hxy]
  simp [List.append_assoc]

theorem flatNW_splice_merge (fs : List Str) (i : Nat) (h : i + 1 < fs.length) (x : Str)
    (hx : nonWS x = nonWS (fs.getD i []) ++ nonWS (fs.getD (i+1) [])) :
    flatNW (fs.take i ++ [x] ++ fs.drop (i+2)) = flatNW fs := by
  conv_rhs => rw [← list_decomp2 fs i h]
  simp only [flatNW_append, flatNW_cons]
  have hz : flatNW ([] : List Str) = [] := rfl
  rw [hz, hx]
  simp [List.append_assoc]

theorem nonWS_interNN_halves (parts : List Str) (mid : Nat) :
    nonWS (interNN (parts.take mid)) ++ nonWS (interNN (parts.drop mid)) = flatNW parts := by
  rw [nonWS_interNN, nonWS_interNN, ← flatNW_append, List.take_append_drop]

theorem splitGoF_flatNW : ∀ (fuel : Nat) (frames : List Str) (target : Nat) (r : List Str),
    frames.length ≤ target → splitGoF fuel frames target = some r →
    flatNW r = flatNW frames := by
  intro fuel
  induction fuel with
  | zero =>
    intro frames target r hle h
    cases frames with
    | nil =>
      rw [splitGoF] at h
      by_cases ht : target ≤ ([] : List Str).length
      · rw [if_pos ht] at h
        injection h with h'
        rw [← h']
        simp
      · rw [if_neg ht] at h
        exact absurd h (by simp)
    | cons f fs =>
      rw [splitGoF.eq_2 (f :: fs) target (by simp)] at h
      by_cases ht : target ≤ (f :: fs).length
      · rw [if_pos ht] at h
        injection h with h'
        rw [← h', List.take_of_length_le hle]
      · rw [if_neg ht] at h
        exact absurd h (by simp)
  | succ fuel' ih =>
    intro frames target r hle h
    cases frames with
    | nil =>
      rw [splitGoF] at h
      by_cases ht : target ≤ ([] : List Str).length
      · rw [if_pos ht] at h
        injection h with h'
        rw [← h']
        simp
      · rw [if_neg ht] at h
        exact absurd h (by simp)
    | cons f fs =>
      rw [splitGoF.eq_3 (f :: fs) target fuel' (by simp)] at h
      by_cases ht : target ≤ (f :: fs).length
      · rw [if_pos ht] at h
        injection h with h'
        rw [← h', List.take_of_length_le hle]
      · rw [if_neg ht] at h
        simp only [] at h
        by_cases hp : (paraParts ((f :: fs).getD (argmaxLen (f :: fs)) [])).length ≤ 1
        · rw [if_pos hp] at h
          injection h with h'
          rw [← h', List.take_of_length_le hle]
        · rw [if_neg hp] at h
          have hi : argmaxLen (f :: fs) < (f :: fs).length := argmaxLen_lt _ (by simp)
          have hlen := length_splice (f :: fs) (argmaxLen (f :: fs)) hi
            (interNN ((paraParts ((f :: fs).getD (argmaxLen (f :: fs)) [])).take
              ((paraParts ((f :: fs).getD (argmaxLen (f :: fs)) [])).length / 2)))
            (interNN ((paraParts ((f :: fs).getD (argmaxLen (f :: fs)) [])).drop
              ((paraParts ((f :: fs).getD (argmaxLen (f :: fs)) [])).length / 2)))
          have hrec := ih _ target r (by rw [hlen]; omega) h
          rw [hrec]
          exact flatNW_splice _ _ hi _ _
            (by rw [nonWS_interNN_halves, flatNW_paraParts])

theorem mergeGoF_flatNW : ∀ (fuel : Nat) (frames : List Str) (target : Nat) (r : List Str),
    1 ≤ target → mergeGoF fuel frames target = some r →
    flatNW r = flatNW frames := by
  intro fuel
  induction fuel with
  | zero =>
    intro frames target r h1 h
    cases frames with
    | nil =>
      rw [mergeGoF] at h
      by_cases ht : ([] : List Str).length ≤ target
      · rw [if_pos ht] at h
        injection h with h'
        rw [← h']
      · rw [if_neg ht] at h
        exact absurd h (by simp)
    | cons f fs =>
      rw [mergeGoF.eq_2 (f :: fs) target (by simp)] at h
      by_cases ht : (f :: fs).length ≤ target
      · rw [if_pos ht] at h
        injection h with h'
        rw [← h']
      · rw [if_neg ht] at h
        exact absurd h (by simp)
  | succ fuel' ih =>
    intro frames target r h1 h
    cases frames with
    | nil =>
      rw [mergeGoF] at h
      by_cases ht : ([] : List Str).length ≤ target
      · rw [if_pos ht] at h
        injection h with h'
        rw [← h']
      · rw [if_neg ht] at h
        exact absurd h (by simp)
    | cons f fs =>
      rw [mergeGoF.eq_3 (f :: fs) target fuel' (by simp)] at h
      by_cases ht : (f :: fs).length ≤ target
      · rw [if_pos ht] at h
        injection h with h'
        rw [← h']
      · rw [if_neg ht] at h
        simp only [] at h
        have hsi : argminLen (f :: fs) < (f :: fs).length := argminLen_lt _ (by simp)
        by_cases hm : argminLen (f :: fs) + 1 < (f :: fs).length
        · rw [if_pos hm] at h
          have hrec := ih _ target r h1 h
          rw [hrec]
          exact flatNW_splice_merge _ _ hm _ (nonWS_merge _ _)
        · rw [if_neg hm] at h
          have hlen2 : 2 ≤ (f :: fs).length := by
            simp only [List.length_cons] at ht ⊢
            omega
          have hone : ¬ (f :: fs).length = 1 := by omega
          rw [if_neg hone] at h
          have hsi1 : 1 ≤ argminLen (f :: fs) := by omega
          have hm2 : (argminLen (f :: fs) - 1) + 1 < (f :: fs).length := by omega
          have hrec := ih _ target r h1 h
          rw [hrec]
          have heq : argminLen (f :: fs) - 1 + 1 = argminLen (f :: fs) := by omega
          have heq2 : argminLen (f :: fs) - 1 + 2 = argminLen (f :: fs) + 1 := by omega
          have hx := flatNW_splice_merge (f :: fs) (argminLen (f :: fs) - 1) hm2
            ((f :: fs).getD (argminLen (f :: fs) - 1) [] ++
              '\n' :: '\n' :: (f :: fs).getD (argminLen (f :: fs)) [])
            (by rw [nonWS_merge, heq])
          rw [heq2] at hx
          exact hx

theorem splitGoF_count : ∀ (fuel : Nat) (frames : List Str) (target : Nat) (r : List Str),
    frames.length ≤ target → splitGoF fuel frames target = some r →
    r.length = target ∨
      ((paraParts (r.getD (argmaxLen r) [])).length ≤ 1 ∧ r.length < target) := by
  intro fuel
  induction fuel with
  | zero =>
    intro frames target r hle h
    cases frames with
    | nil =>
      rw [splitGoF] at h
      by_cases ht : target ≤ ([] : List Str).length
      · rw [if_pos ht] at h
        injection h with h'
        left
        rw [← h']
        simp only [List.length_nil] at ht
        simp [Nat.le_zero.mp ht]
      · rw [if_neg ht] at h
        exact absurd h (by simp)
    | cons f fs =>
      rw [splitGoF.eq_2 (f :: fs) target (by simp)] at h
      by_cases ht : target ≤ (f :: fs).length
      · rw [if_pos ht] at h
        injection h with h'
        left
        rw [← h', List.take_of_length_le hle]
        omega
      · rw [if_neg ht] at h
        exact absurd h (by simp)
  | succ fuel' ih =>
    intro frames target r hle h
    cases frames with
    | nil =>
      rw [splitGoF] at h
      by_cases ht : target ≤ ([] : List Str).length
      · rw [if_pos ht] at h
        injection h with h'
        left
        rw [← h']
        simp only [List.length_nil] at ht
        simp [Nat.le_zero.mp ht]
      · rw [if_neg ht] at h
        exact absurd h (by simp)
    | cons f fs =>
      rw [splitGoF.eq_3 (f :: fs) target fuel' (by simp)] at h
      by_cases ht : target ≤ (f :: fs).length
      · rw [if_pos ht] at h
        injection h with h'
        left
        rw [← h', List.take_of_length_le hle]
        omega
      · rw [if_neg ht] at h
        simp only [] at h
        by_cases hp : (paraParts ((f :: fs).getD (argmaxLen (f :: fs)) [])).length ≤ 1
        · rw [if_pos hp] at h
          injection h with h'
          right
          rw [← h', List.take_of_length_le hle]
          exact ⟨hp, by omega⟩
        · rw [if_neg hp] at h
          have hi : argmaxLen (f :: fs) < (f :: fs).length := argmaxLen_lt _ (by simp)
          have hlen := length_splice (f :: fs) (argmaxLen (f :: fs)) hi
            (interNN ((paraParts ((f :: fs).getD (argmaxLen (f :: fs)) [])).take
              ((paraParts ((f :: fs).getD (argmaxLen (f :: fs)) [])).length / 2)))
            (interNN ((paraParts ((f :: fs).getD (argmaxLen (f :: fs)) [])).drop
              ((paraParts ((f :: fs).getD (argmaxLen (f :: fs)) [])).length / 2)))
          exact ih _ target r (by rw [hlen]; omega) h

theorem mergeGoF_count : ∀ (fuel : Nat) (frames : List Str) (target : Nat) (r : List Str),
    1 ≤ target → frames.length ≤ target + fuel → mergeGoF fuel frames target = some r →
    r.length = target ∨ (frames.length ≤ target ∧ r = frames) := by
  intro fuel
  induction fuel with
  | zero =>
    intro frames target r h1 hf h
    cases frames with
    | nil =>
      rw [mergeGoF] at h
      by_cases ht : ([] : List Str).length ≤ target
      · rw [if_pos ht] at h
        injection h with h'
        exact Or.inr ⟨ht, h'.symm⟩
      · rw [if_neg ht] at h
        exact absurd h (by simp)
    | cons f fs =>
      rw [mergeGoF.eq_2 (f :: fs) target (by simp)] at h
      by_cases ht : (f :: fs).length ≤ target
      · rw [if_pos ht] at h
        injection h with h'
        exact Or.inr ⟨ht, h'.symm⟩
      · rw [if_neg ht] at h
        exact absurd h (by simp)
  | succ fuel' ih =>
    intro frames target r h1 hf h
    cases frames with
    | nil =>
      rw [mergeGoF] at h
      by_cases ht : ([] : List Str).length ≤ target
      · rw [if_pos ht] at h
        injection h with h'
        exact Or.inr ⟨ht, h'.symm⟩
      · rw [if_neg ht] at h
        exact absurd h (by simp)
    | cons f fs =>
      rw [mergeGoF.eq_3 (f :: fs) target fuel' (by simp)] at h
      by_cases ht : (f :: fs).length ≤ target
      · rw [if_pos ht] at h
        injection h with h'
        exact Or.inr ⟨ht, h'.symm⟩
      · rw [if_neg ht] at h
        simp only [] at h
        have hsi : argminLen (f :: fs) < (f :: fs).length := argminLen_lt _ (by simp)
        by_cases hm : argminLen (f :: fs) + 1 < (f :: fs).length
        · rw [if_pos hm] at h
          have hlen := length_splice1 (f :: fs) (argminLen (f :: fs)) hm
            ((f :: fs).getD (argminLen (f :: fs)) [] ++
              '\n' :: '\n' :: (f :: fs).getD (argminLen (f :: fs) + 1) [])
          rcases ih _ target r h1 (by rw [hlen]; omega) h with h2 | ⟨h3, h4⟩
          · exact Or.inl h2
          · left
            rw [h4, hlen]
            omega
        · rw [if_neg hm] at h
          have hlen2 : 2 ≤ (f :: fs).length := by
            simp only [List.length_cons] at ht ⊢
            omega
          have hone : ¬ (f :: fs).length = 1 := by omega
          rw [if_neg hone] at h
          have hsi1 : 1 ≤ argminLen (f :: fs) := by omega
          have hm2 : (argminLen (f :: fs) - 1) + 1 < (f :: fs).length := by omega
          have heq2 : argminLen (f :: fs) - 1 + 2 = argminLen (f :: fs) + 1 := by omega
          have hlen := length_splice1 (f :: fs) (argminLen (f :: fs) - 1) hm2
            ((f :: fs).getD (argminLen (f :: fs) - 1) [] ++
              '\n' :: '\n' :: (f :: fs).getD (argminLen (f :: fs)) [])
          rw [heq2] at hlen
          rcases ih _ target r h1 (by rw [hlen]; omega) h with h2 | ⟨h3, h4⟩
          · exact Or.inl h2
          · left
            rw [h4, hlen]
            omega

/-! ## Claim C3 -/

/-- C3: reconciliation (splitting when under the declared count, merging when
over it, as dispatched by `extract_frames_from_section`) never reorders
frames and never drops content: whenever it returns, the in-order
concatenation of the non-whitespace characters of the frames is unchanged
(which subsumes preservation of both the relative order of the frames' text
and the multiset of non-whitespace characters). -/
theorem reconcile_preserves_content :
    ∀ (cleaned : List Str) (declared : Option Nat) (r : List Str),
      reconcile cleaned declared = some r → flatNW r = flatNW cleaned := by
  intro cleaned declared r h
  cases declared with
  | none =>
    rw [reconcile] at h
    injection h with h'
    rw [← h']
  | some k =>
    cases k with
    | zero =>
      rw [reconcile] at h
      injection h with h'
      rw [← h']
    | succ k =>
      rw [reconcile] at h
      by_cases he : cleaned.length = k + 1
      · rw [if_pos he] at h
        injection h with h'
        rw [← h']
      · rw [if_neg he] at h
        by_cases hl : cleaned.length < k + 1
        · rw [if_pos hl] at h
          rw [split_to_target_count] at h
          exact splitGoF_flatNW _ _ _ _ (by omega) h
        · rw [if_neg hl] at h
          rw [merge_to_target_count] at h
          exact mergeGoF_flatNW _ _ _ _ (by omega) h

theorem reconcile_preserves_content_witness :
    flatNW [lstr "a", lstr "b"] = flatNW [lstr "a\n\nb"] :=
  reconcile_preserves_content [lstr "a\n\nb"] (some 2) [lstr "a", lstr "b"] (by decide)

/-! ## Claim C1 -/

/-- The longest frame of the C1 counterexample: a single 60-character
paragraph (one paragraph unit, nothing to split). -/
def frameA : Str := List.replicate 60 'a'

/-- The shorter frame of the C1 counterexample: two paragraph units. -/
def frameB : Str := List.replicate 26 'b' ++ '\n' :: '\n' :: List.replicate 26 'c'

/-- A section body declaring 3 frames whose marker-based detection yields the
two cleaned frames `frameA` and `frameB` (3 paragraph units in total). -/
def bodyC1 : Str :=
  lstr "*(3 frames)*\n**[Frame 1]**\n" ++ frameA ++ lstr "\n**[Frame 2]**\n" ++ frameB

/-- C1 counterexample: a section with declared count `K = 3` whose detection
yields `M = 2` cleaned frames holding 3 ≥ K paragraph units in total, yet
reconciliation returns 2 ≠ K frames: the under-split loop stops as soon as
the single longest frame (`frameA`) has at most one paragraph unit, even
though `frameB` still has two.  The claim's "whenever the frames together
contain at least K paragraph units" guarantee is false on the code. -/
theorem reconcile_para_units_counterexample :
    framesCountInSection (remove_frame_continued_markers bodyC1) = some 3 ∧
    extract_frames_from_section bodyC1 = some [frameA, frameB] ∧
    (paraParts frameA).length + (paraParts frameB).length = 3 ∧
    ([frameA, frameB] : List Str).length = 2 ∧
    reconcile [frameA, frameB] (some 3) = some [frameA, frameB] := by
  refine ⟨by decide, by decide, by decide, by decide, by decide⟩

/-- C1 amended: for a declared count `K ≥ 1`, whenever the reconciliation
dispatch returns, it returns exactly `K` frames - merging always reaches `K`,
and under-splitting repeatedly splits the single longest frame (ties broken
by earliest index) at its paragraph midpoint - unless the under-split loop
stopped early, which happens exactly when the currently longest remaining
frame has at most one paragraph unit left (even if other, shorter frames
could still be split); in that case fewer than `K` frames are returned and
the discrepancy is recorded as a warning by the driver. -/
theorem reconcile_count_convergence_amended :
    ∀ (cleaned : List Str) (k : Nat) (r : List Str),
      reconcile cleaned (some (k+1)) = some r →
      r.length = k + 1 ∨
        ((paraParts (r.getD (argmaxLen r) [])).length ≤ 1 ∧ r.length < k + 1) := by
  intro cleaned k r h
  rw [reconcile] at h
  by_cases he : cleaned.length = k + 1
  · rw [if_pos he] at h
    injection h with h'
    left
    rw [← h']
    exact he
  · rw [if_neg he] at h
    by_cases hl : cleaned.length < k + 1
    · rw [if_pos hl] at h
      rw [split_to_target_count] at h
      exact splitGoF_count _ _ _ _ (by omega) h
    · rw [if_neg hl] at h
      rw [merge_to_target_count] at h
      rcases mergeGoF_count _ _ _ _ (by omega) (Nat.le_add_left _ _) h with h1 | ⟨h2, _⟩
      · exact Or.inl h1
      · omega

theorem reconcile_count_convergence_amended_witness :
    ([lstr "a", lstr "b"] : List Str).length = 1 + 1 ∨
      ((paraParts (([lstr "a", lstr "b"] : List Str).getD
          (argmaxLen [lstr "a", lstr "b"]) [])).length ≤ 1 ∧
        ([lstr "a", lstr "b"] : List Str).length < 1 + 1) :=
  reconcile_count_convergence_amended [lstr "a\n\nb"] 1 [lstr "a", lstr "b"] (by decide)

/-! ## Claim C2 -/

/-- A section body containing exactly one strong marker line. -/
def bodyC2 : Str := lstr "**[Frame 1]**\n" ++ List.replicate 60 'h'

/-- C2 counterexample: a body with exactly one genuine marker line.  The code
uses the marker-based partition (`if marker_indices:` fires on any nonempty
list), producing the single frame after the marker, whereas the Fallback
Segmenter would return no frames here - so control demonstrably does not pass
to the fallback, contradicting the claim that a single marker never produces
a marker-based segmentation. -/
theorem single_marker_counterexample :
    markerIdxGo (splitLines (remove_frame_continued_markers bodyC2)) 0 = [0] ∧
    extract_frames_from_section bodyC2 = some [List.replicate 60 'h'] ∧
    fallback_split (remove_frame_continued_markers bodyC2)
      (framesCountInSection (remove_frame_continued_markers bodyC2)) = [] ∧
    some [List.replicate 60 'h'] ≠ (some ([] : List Str)) := by
  refine ⟨by decide, by decide, by decide, by decide⟩

/-- C2 amended: control passes to the Fallback Segmenter exactly when zero
strong marker lines are found; one or more markers (a single one included)
produce the marker-based segmentation. -/
theorem marker_branch_dispatch :
    ∀ body : Str,
      (markerIdxGo (splitLines (remove_frame_continued_markers body)) 0 = [] →
        extract_frames_from_section body =
          some (fallback_split (remove_frame_continued_markers body)
            (framesCountInSection (remove_frame_continued_markers body)))) ∧
      (markerIdxGo (splitLines (remove_frame_continued_markers body)) 0 ≠ [] →
        extract_frames_from_section body =
          reconcile (cleanedFrames (remove_frame_continued_markers body))
            (framesCountInSection (remove_frame_continued_markers body))) := by
  intro body
  constructor
  · intro h
    rw [extract_frames_from_section]
    rw [h]
  · intro h
    rw [extract_frames_from_section]
    cases hm : markerIdxGo (splitLines (remove_frame_continued_markers body)) 0 with
    | nil => exact absurd hm h
    | cons a b => rfl

theorem marker_branch_dispatch_witness :
    extract_frames_from_section bodyC2 =
      reconcile (cleanedFrames (remove_frame_continued_markers bodyC2))
        (framesCountInSection (remove_frame_continued_markers bodyC2)) :=
  (marker_branch_dispatch bodyC2).2 (by decide)

/-! ## Claim C7 -/

/-- A body with two substantive paragraphs and no markers or rules. -/
def bodyC7 : Str := List.replicate 101 'a' ++ '\n' :: '\n' :: List.replicate 101 'b'

/-- C7 counterexample: no strong markers, declared count `K = 3`, and only
2 < K substantive paragraphs.  The claim says the fallback falls through to
an even sentence-count split producing exactly `K` contiguous groups, but the
code simply returns the 2 paragraphs: there is no sentence-level splitting
anywhere in `fallback_split`. -/
theorem fallback_no_sentence_split_counterexample :
    (substParas bodyC7).length = 2 ∧
    fallback_split bodyC7 (some 3) =
      [List.replicate 101 'a', List.replicate 101 'b'] ∧
    (fallback_split bodyC7 (some 3)).length ≠ 3 := by
  refine ⟨by decide, by decide, by decide⟩

/-- C7 amended: when the horizontal-rule chunk count differs from the
declared count `K ≥ 1` and the number of substantive paragraphs is at most
`K` (in particular smaller than `K`), the fallback returns the cleaned
substantive paragraphs themselves - possibly fewer than `K` frames; no
sentence-count split exists in the code. -/
theorem fallback_paragraphs_when_under_declared :
    ∀ (body : Str) (k : Nat),
      (((hrSplit body).map stripL).filter (fun c => !c.isEmpty)).length ≠ k + 1 →
      (substParas body).length ≤ k + 1 →
      fallback_split body (some (k+1)) = (substParas body).map clean_text := by
  intro body k h1 h2
  rw [fallback_split]
  simp only []
  rw [if_neg h1, if_pos h2]

theorem fallback_paragraphs_when_under_declared_witness :
    fallback_split bodyC7 (some 3) = (substParas bodyC7).map clean_text :=
  fallback_paragraphs_when_under_declared bodyC7 2 (by decide) (by decide)

/-! ## Claim C9 -/

theorem postProcessFrames_mem_ne_nil :
    ∀ (fs : List Str) (f : Str), f ∈ postProcessFrames fs → f ≠ [] := by
  intro fs f hf
  rcases List.mem_map.mp hf with ⟨x, _, hx⟩
  by_cases he : (stripL x).isEmpty = true
  · rw [if_pos he] at hx
    rw [← hx]
    simp
  · rw [if_neg he] at hx
    rw [← hx]
    intro hxnil
    rw [hxnil] at he
    exact he rfl

theorem driveSections_frames :
    ∀ (secs : List (Option Str × Str)) (recs : List SectionRec),
      driveSections secs = some recs →
      ∀ r ∈ recs, ∃ fs0, r.frames = postProcessFrames fs0 := by
  intro secs
  induction secs with
  | nil =>
    intro recs h
    rw [driveSections] at h
    injection h with h'
    rw [← h']
    intro r hr
    exact absurd hr (by simp)
  | cons hb rest ih =>
    intro recs h
    rw [driveSections] at h
    cases hex : extract_frames_from_section hb.2 with
    | none => rw [hex] at h; exact absurd h (by simp)
    | some fs0 =>
      rw [hex] at h
      simp only [] at h
      cases hrest : driveSections rest with
      | none => rw [hrest] at h; exact absurd h (by simp)
      | some recs' =>
        rw [hrest] at h
        injection h with h'
        intro r hr
        rw [← h'] at hr
        rcases List.mem_cons.mp hr with h1 | h2
        · exact ⟨fs0, by rw [h1]⟩
        · exact ih recs' hrest r h2

/-- C9: every frame in the final per-section output of the pipeline driver is
a non-empty string; the post-processing step maps each would-be-empty
(empty or whitespace-only) frame to the placeholder `"_"` instead of
removing it, preserving the number of slots. -/
theorem frames_nonempty_after_postprocessing :
    (∀ (text : Str) (recs : List SectionRec) (r : SectionRec) (f : Str),
        parse_script_file text = some recs → r ∈ recs → f ∈ r.frames → f ≠ []) ∧
    (∀ fs : List Str, (postProcessFrames fs).length = fs.length) ∧
    (∀ (fs : List Str) (g : Str), g ∈ postProcessFrames fs →
        g = ['_'] ∨ (g ∈ fs ∧ (stripL g).isEmpty = false)) := by
  refine ⟨?_, ?_, ?_⟩
  · intro text recs r f hparse hr hf
    rcases driveSections_frames _ recs hparse r hr with ⟨fs0, hfs0⟩
    rw [hfs0] at hf
    exact postProcessFrames_mem_ne_nil fs0 f hf
  · intro fs
    simp [postProcessFrames]
  · intro fs g hg
    rcases List.mem_map.mp hg with ⟨x, hxmem, hx⟩
    by_cases he : (stripL x).isEmpty = true
    · left
      rw [← hx, if_pos he]
    · right
      rw [← hx, if_neg he]
      exact ⟨hxmem, by simpa using he⟩

theorem frames_nonempty_after_postprocessing_witness :
    List.replicate 101 'a' ≠ ([] : Str) :=
  frames_nonempty_after_postprocessing.1 (List.replicate 101 'a')
    [{ header := none, declared_frames := none, num_frames_detected := 1,
       frames := [List.replicate 101 'a'], warned := false }]
    { header := none, declared_frames := none, num_frames_detected := 1,
      frames := [List.replicate 101 'a'], warned := false }
    (List.replicate 101 'a') (by decide) (by decide) (by decide)

/-! ## Claim C10 -/

/-- A body with three marker lines whose middle inter-marker segment is a
short (≤ 50 characters) string containing the letter `q`. -/
def bodyC10 : Str :=
  lstr "**[Frame 1]**\n" ++ List.replicate 60 'd' ++
    lstr "\n**[Frame 2]**\nzq zq\n**[Frame 3]**\n" ++ List.replicate 60 'e'

/-- C10: in the marker-based path every inter-marker segment whose stripped
raw text is at most 50 characters long is silently discarded before
reconciliation (`if len(f.strip()) > 50`); concretely, a body with three
marker lines and a short middle segment yields only two frames, and the
short segment's content (`q`) appears in no output frame. -/
theorem short_segments_discarded :
    (∀ body1 : Str, cleanedFrames body1 =
      ((rawFrames body1).filter (fun f => 50 < (stripL f).length)).map clean_text) ∧
    rawFrames bodyC10 = [List.replicate 60 'd', lstr "zq zq", List.replicate 60 'e'] ∧
    (stripL (lstr "zq zq")).length ≤ 50 ∧
    (markerIdxGo (splitLines bodyC10) 0).length = 3 ∧
    extract_frames_from_section bodyC10 =
      some [List.replicate 60 'd', List.replicate 60 'e'] ∧
    'q' ∈ lstr "zq zq" ∧
    (∀ f ∈ ([List.replicate 60 'd', List.replicate 60 'e'] : List Str), 'q' ∉ f) := by
  refine ⟨fun body1 => rfl, by decide, by decide, by decide, by decide, by decide, by decide⟩

theorem short_segments_discarded_witness :
    'q' ∉ List.replicate 60 'd' :=
  short_segments_discarded.2.2.2.2.2.2 (List.replicate 60 'd') (by decide)

/-! ## Claim C5 -/

/-- C5 counterexample: a single-asterisk (italic) emphasis span is removed
entirely by normalization - wrapped words included - rather than having only
the wrapping characters stripped: `clean_text("*hello*") = ""`. -/
theorem cleanText_drops_italic_words :
    clean_text (lstr "*hello*") = [] := by decide

/-- C5 amended: normalization strips every asterisk from its output; bold
(double-asterisk) emphasis keeps the wrapped words with the wrappers
stripped, but single-asterisk italic spans are removed wholesale (they are
treated as stage directions, wrapped words included). -/
theorem cleanText_emphasis_amended :
    (∀ s : Str, '*' ∉ clean_text s) ∧
    clean_text (lstr "**hello world**") = lstr "hello world" ∧
    clean_text (lstr "*hello world*") = [] := by
  refine ⟨?_, by decide, by decide⟩
  intro s h
  simp only [clean_text] at h
  have := List.mem_filter.mp h
  simp at this

theorem cleanText_emphasis_amended_witness :
    '*' ∉ clean_text (lstr "x*y") :=
  cleanText_emphasis_amended.1 (lstr "x*y")

/-! ## Claim C6 -/

/-- C6 counterexample: a plain `(K frames)` annotation without the
surrounding asterisks of the italic markup is not matched -
`FRAMES_COUNT_IN_SECTION` requires `\*\s*\((\d+)\s+frames\)\s*\*` - so the
extractor returns null where the claim requires `K = 4`. -/
theorem plain_annotation_not_matched :
    framesCountInSection (lstr "(4 frames)") = none ∧
    framesCountInSection (lstr "*(4 frames)*") = some 4 := by
  refine ⟨by decide, by decide⟩

theorem matchFCIS_no_star : ∀ l : Str, '*' ∉ l → matchFCIS l = none := by
  intro l h
  cases l with
  | nil => rfl
  | cons c rest =>
    rw [matchFCIS.eq_def]
    split
    · next r1 heq =>
      injection heq with hc _
      exact absurd (hc ▸ List.mem_cons_self c rest) h
    · rfl

theorem fcisGoF_no_star : ∀ (fuel : Nat) (l : Str), '*' ∉ l → fcisGoF fuel l = none := by
  intro fuel
  induction fuel with
  | zero =>
    intro l h
    rw [fcisGoF, matchFCIS_no_star l h]
  | succ f ih =>
    intro l h
    cases l with
    | nil => rfl
    | cons c rest =>
      rw [fcisGoF, matchFCIS_no_star _ h]
      exact ih rest (fun hm => h (List.mem_cons_of_mem c hm))

/-- C6 amended: the extractor returns `K` for the first occurrence of an
italic-wrapped inline annotation of the shape `*(K frames)*`
(case-insensitive, `K` a non-negative integer), ignoring any later
occurrences; it returns null when no such annotation exists - in particular
a body without a single asterisk can never produce a count. -/
theorem declared_count_extractor_amended :
    (∀ post : Str, framesCountInSection (lstr "*(3 frames)*" ++ post) = some 3) ∧
    (∀ body : Str, '*' ∉ body → framesCountInSection body = none) ∧
    framesCountInSection (lstr "hello *(12 FRAMES)* x *(9 frames)* y") = some 12 := by
  refine ⟨?_, ?_, by decide⟩
  · intro post
    rfl
  · intro body h
    exact fcisGoF_no_star body.length body h

theorem declared_count_extractor_amended_witness :
    framesCountInSection (lstr "no annotation here") = none :=
  declared_count_extractor_amended.2.1 (lstr "no annotation here") (by decide)

/-! ## Claim C8 -/

/-- `FRAME_CONTINUED_PAT` as a predicate on one stripped (newline-free) line:
`\s*\*\*\s*\[Frame\s*\d+\s+Continued\]\s*\*\*\s*` matched in full. -/
def continuedCore (t : Str) : Bool :=
  match (spanB isSpc t).2 with
  | '*' :: '*' :: b =>
    (match ciPre (lstr "[frame") (spanB isSpc b).2 with
     | none => false
     | some d =>
       let (ds, f) := spanB (fun c => c.isDigit) (spanB isSpc d).2
       if ds.isEmpty then false
       else
         let (ws3, g) := spanB isSpc f
         if ws3.isEmpty then false
         else
           match ciPre (lstr "continued]") g with
           | none => false
           | some h2 =>
             (match (spanB isSpc h2).2 with
              | '*' :: '*' :: j => (spanB isSpc j).2.isEmpty
              | _ => false))
  | _ => false

/-- A line matches the `Frame N Continued` cue when, stripped as
`is_strong_frame_boundary` strips its input, it fully matches the pattern. -/
def isContinuedLine (line : Str) : Bool := continuedCore (stripL line)

theorem ciPre_cons_some (p : Char) (ps l r : Str) (h : ciPre (p :: ps) l = some r) :
    ∃ c cs, l = c :: cs ∧ p = c.toLower ∧ ciPre ps cs = some r := by
  cases l with
  | nil => simp [ciPre] at h
  | cons c cs =>
    rw [ciPre] at h
    split at h
    · next hp => exact ⟨c, cs, rfl, by simpa using hp, h⟩
    · simp at h

theorem takeWhile_ne_nil_struct (p : Char → Bool) (l : Str) (h : l.takeWhile p ≠ []) :
    ∃ c cs, l = c :: cs ∧ p c = true := by
  cases l with
  | nil => simp at h
  | cons c cs =>
    rw [List.takeWhile_cons] at h
    by_cases hp : p c = true
    · exact ⟨c, cs, rfl, hp⟩
    · simp [hp] at h

theorem strongDigitsClose_false_of_ws (d : Str)
    (hws : List.takeWhile isSpc
      (List.dropWhile (fun c => c.isDigit) (List.dropWhile isSpc d)) ≠ []) :
    strongDigitsClose d = false := by
  rw [strongDigitsClose]
  simp only [spanB]
  by_cases hds : (List.takeWhile (fun c => c.isDigit) (List.dropWhile isSpc d)).isEmpty = true
  · rw [if_pos hds]
  · rw [if_neg hds]
    rcases takeWhile_ne_nil_struct _ _ hws with ⟨w, tail, hf, hpw⟩
    split
    · next r3 heq =>
      rw [hf] at heq
      injection heq with h1 _
      rw [h1] at hpw
      exact absurd hpw (by decide)
    · next => rfl

theorem continued_not_strong : ∀ t : Str, continuedCore t = true → strongMatch t = false := by
  intro t h
  rw [continuedCore] at h
  rw [strongMatch]
  simp only [spanB] at h ⊢
  split at h
  · next b heqb =>
    -- `split` substituted the scrutinee in the goal as well
    -- peel the `[frame` prefix of the continued match
    split at h
    · simp at h
    · next d heqd =>
      have e1 : lstr "[frame" = '[' :: lstr "frame" := rfl
      rw [e1] at heqd
      rcases ciPre_cons_some _ _ _ _ heqd with ⟨c, cs, hbc, hcl, hfr⟩
      rw [hbc]
      -- the if-chain of the continued match
      split at h
      · simp at h
      · split at h
        · simp at h
        · next hds hws3 =>
          -- hws3 : ¬ takeWhile isSpc (...) .isEmpty = true
          have hws : List.takeWhile isSpc
              (List.dropWhile (fun c => c.isDigit) (List.dropWhile isSpc d)) ≠ [] := by
            intro hnil
            exact hws3 (by rw [hnil]; rfl)
          -- now discharge the strong-marker match on `c :: cs`
          by_cases hc : c = '['
          · subst hc
            split
            · next r4 heq4 =>
              injection heq4 with _ hcs
              subst hcs
              split
              · next r5 heqa =>
                have e2 : lstr "advance to frame" = 'a' :: lstr "dvance to frame" := rfl
                rw [e2] at heqa
                rcases ciPre_cons_some _ _ _ _ heqa with ⟨e, es, hcse, hal, _⟩
                have e3 : lstr "frame" = 'f' :: lstr "rame" := rfl
                rw [e3, hcse] at hfr
                rcases ciPre_cons_some _ _ _ _ hfr with ⟨e', es', hee, hfl, _⟩
                injection hee with he _
                rw [← he] at hfl
                rw [← hal] at hfl
                exact absurd hfl (by decide)
              · next heqa =>
                cases hck : ciPre (lstr "click to ") cs with
                | some rr =>
                  have e4 : lstr "click to " = 'c' :: lstr "lick to " := rfl
                  rw [e4] at hck
                  rcases ciPre_cons_some _ _ _ _ hck with ⟨e, es, hcse, hal, _⟩
                  have e3 : lstr "frame" = 'f' :: lstr "rame" := rfl
                  rw [e3, hcse] at hfr
                  rcases ciPre_cons_some _ _ _ _ hfr with ⟨e', es', hee, hfl, _⟩
                  injection hee with he _
                  rw [← he] at hfl
                  rw [← hal] at hfl
                  exact absurd hfl (by decide)
                | none =>
                  simp only []
                  rw [hfr]
                  exact strongDigitsClose_false_of_ws d hws
            · next => rfl
          · -- the line's bracket character is not `[`: the strong match fails
            split
            · next r4 heq4 =>
              injection heq4 with h4 _
              exact absurd h4 hc
            · next => rfl
  · simp at h

/-- The concrete body of the claim: a `[Frame 3]` marker followed later by a
`[Frame 3 Continued]` marker. -/
def bodyC8 : Str := lstr "**[Frame 3]**\nhello\n**[Frame 3 Continued]**\nworld"

/-- C8: lines matching the `Frame N Continued` cue are removed before
detection and can never count as boundaries (no such line ever matches
`STRONG_FRAME_MARKER`); the claim's body with `**[Frame 3]**` followed by
`**[Frame 3 Continued]**` yields exactly one boundary, at the `[Frame 3]`
line. -/
theorem continued_marker_suppression :
    (∀ line : Str, isContinuedLine line = true → is_strong_frame_boundary line = false) ∧
    remove_frame_continued_markers bodyC8 = lstr "**[Frame 3]**\nhello\n\nworld" ∧
    markerIdxGo (splitLines (remove_frame_continued_markers bodyC8)) 0 = [0] ∧
    isContinuedLine (lstr "**[Frame 3 Continued]**") = true ∧
    is_strong_frame_boundary (lstr "**[Frame 3]**") = true := by
  refine ⟨?_, by decide, by decide, by decide, by decide⟩
  intro line h
  rw [isContinuedLine] at h
  rw [is_strong_frame_boundary]
  exact continued_not_strong (stripL line) h

theorem continued_marker_suppression_witness :
    is_strong_frame_boundary (lstr "**[Frame 3 Continued]**") = false :=
  continued_marker_suppression.1 (lstr "**[Frame 3 Continued]**") (by decide)

/-! ## Claim C4 -/

/-- C4 counterexample: normalization is not idempotent.  On `"(x)# hi"` the
parenthetical rule deletes `(x)`, exposing `# hi` at the start of the line;
the heading rule of a second pass then deletes the whole line, so
`clean_text(clean_text(x)) ≠ clean_text(x)`. -/
theorem cleanText_not_idempotent :
    clean_text (lstr "(x)# hi") = lstr "# hi" ∧
    clean_text (clean_text (lstr "(x)# hi")) = [] ∧
    clean_text (clean_text (lstr "(x)# hi")) ≠ clean_text (lstr "(x)# hi") := by
  refine ⟨by decide, by decide, by decide⟩

/-! Substring and prefix toolkit for the amended idempotence theorem. -/

theorem isPreB_nil (l : Str) : isPreB [] l = true := by cases l <;> rfl

theorem containsB_of_isPreB (pat t : Str) (h : isPreB pat t = true) :
    containsB pat t = true := by
  cases t with
  | nil => rw [containsB]; exact h
  | cons c cs => rw [containsB, h]; rfl

theorem containsB_cons_of (pat : Str) (c : Char) (t : Str) (h : containsB pat t = true) :
    containsB pat (c :: t) = true := by
  rw [containsB, h]
  simp

theorem containsB_append_left (pat a t : Str) (h : containsB pat t = true) :
    containsB pat (a ++ t) = true := by
  induction a with
  | nil => simpa using h
  | cons c cs ih => exact containsB_cons_of pat c (cs ++ t) ih

theorem isPreB_append_right (pat : Str) : ∀ (u b : Str), isPreB pat u = true →
    isPreB pat (u ++ b) = true := by
  induction pat with
  | nil => intro u b _; exact isPreB_nil _
  | cons p ps ih =>
    intro u b h
    cases u with
    | nil => simp [isPreB] at h
    | cons c cs =>
      rw [isPreB] at h
      rcases Bool.and_eq_true_iff.mp h with ⟨h1, h2⟩
      rw [List.cons_append, isPreB, h1, ih cs b h2]
      rfl

theorem containsB_append_right (pat : Str) : ∀ (m b : Str), containsB pat m = true →
    containsB pat (m ++ b) = true := by
  intro m
  induction m with
  | nil =>
    intro b h
    rw [containsB] at h
    exact containsB_of_isPreB _ _ (isPreB_append_right _ _ _ h)
  | cons c cs ih =>
    intro b h
    rw [containsB] at h
    rcases Bool.or_eq_true_iff.mp h with h1 | h2
    · exact containsB_of_isPreB _ _ (isPreB_append_right _ _ _ h1)
    · exact containsB_cons_of _ _ _ (ih b h2)

/-- Occurrence inside any decomposition lifts to the whole string. -/
theorem containsB_decomp (pat a m b : Str) (h : containsB pat m = true) :
    containsB pat (a ++ m ++ b) = true := by
  rw [List.append_assoc]
  exact containsB_append_left pat a (m ++ b) (containsB_append_right pat m b h)

theorem ciPre_isPreB (pat : Str) : ∀ (l r : Str), ciPre pat l = some r →
    isPreB pat (l.map Char.toLower) = true := by
  induction pat with
  | nil => intro l r _; exact isPreB_nil _
  | cons p ps ih =>
    intro l r h
    cases l with
    | nil => simp [ciPre] at h
    | cons c cs =>
      rw [ciPre] at h
      split at h
      · next hp =>
        rw [List.map_cons, isPreB, hp]
        rw [ih cs r h]
        rfl
      · simp at h

/-- A case-insensitive prefix match witnesses a case-insensitive occurrence. -/
theorem containsCI_of_ciPre (pat l r : Str) (h : ciPre pat l = some r) :
    containsCI pat l = true := by
  rw [containsCI]
  exact containsB_of_isPreB _ _ (ciPre_isPreB pat l r h)

theorem containsB_false_of_append (pat a t : Str)
    (h : containsB pat (a ++ t) = false) : containsB pat t = false := by
  by_contra hne
  rw [containsB_append_left pat a t (by revert hne; cases containsB pat t <;> simp)] at h
  exact absurd h (by simp)

theorem containsCI_suffix_false (pat : Str) {t l : Str} (hsuf : t <:+ l)
    (h : containsCI pat l = false) : containsCI pat t = false := by
  rcases hsuf with ⟨a, ha⟩
  rw [containsCI] at h ⊢
  rw [← ha, List.map_append] at h
  exact containsB_false_of_append _ _ _ h

theorem mem_of_mem_dropWhile (p : Char → Bool) (l : Str) (c : Char)
    (h : c ∈ l.dropWhile p) : c ∈ l :=
  (List.dropWhile_sublist p).subset h

theorem mem_of_mem_takeWhile (p : Char → Bool) (l : Str) (c : Char)
    (h : c ∈ l.takeWhile p) : c ∈ l :=
  (List.takeWhile_sublist p).subset h

theorem mem_of_mem_stripL (l : Str) (c : Char) (h : c ∈ stripL l) : c ∈ l := by
  unfold stripL at h
  rw [List.mem_reverse] at h
  have h2 := mem_of_mem_dropWhile _ _ _ h
  rw [List.mem_reverse] at h2
  exact mem_of_mem_dropWhile _ _ _ h2

theorem dropWhile_head_false (p : Char → Bool) : ∀ (l : Str) (c : Char) (cs : Str),
    l.dropWhile p = c :: cs → p c = false := by
  intro l
  induction l with
  | nil => intro c cs h; simp at h
  | cons a t ih =>
    intro c cs h
    rw [List.dropWhile_cons] at h
    split at h
    · exact ih c cs h
    · next hpa =>
      injection h with h1 _
      rw [← h1]
      simpa using hpa

theorem dropWhile_eq_self_of_head (p : Char → Bool) (l : Str)
    (h : ∀ c cs, l = c :: cs → p c = false) : l.dropWhile p = l := by
  cases l with
  | nil => rfl
  | cons c cs =>
    rw [List.dropWhile_cons, h c cs rfl]
    simp

theorem dropWhile_decomp_stripL (w : Str) :
    w.dropWhile isSpc = stripL w ++ ((w.dropWhile isSpc).reverse.takeWhile isSpc).reverse := by
  conv_lhs => rw [← List.reverse_reverse (w.dropWhile isSpc)]
  conv_lhs => rw [← @List.takeWhile_append_dropWhile _ isSpc ((w.dropWhile isSpc).reverse)]
  rw [List.reverse_append]
  rfl

theorem stripL_decomp (z : Str) :
    z = z.takeWhile isSpc ++ stripL z ++
      ((z.dropWhile isSpc).reverse.takeWhile isSpc).reverse := by
  conv_lhs => rw [← @List.takeWhile_append_dropWhile _ isSpc z]
  rw [List.append_assoc]
  congr 1
  exact dropWhile_decomp_stripL z

theorem stripL_idem (w : Str) : stripL (stripL w) = stripL w := by
  have h1 : (stripL w).dropWhile isSpc = stripL w := by
    apply dropWhile_eq_self_of_head
    intro c cs hc
    have hE := dropWhile_decomp_stripL w
    rw [hc] at hE
    exact dropWhile_head_false isSpc w c _ (by rw [hE, List.cons_append])
  have h2 : ((stripL w).reverse).dropWhile isSpc = (stripL w).reverse := by
    apply dropWhile_eq_self_of_head
    intro c cs hc
    have he : (stripL w).reverse = ((w.dropWhile isSpc).reverse).dropWhile isSpc := by
      unfold stripL
      rw [List.reverse_reverse]
    rw [he] at hc
    exact dropWhile_head_false isSpc _ c cs hc
  show (((stripL w).dropWhile isSpc).reverse.dropWhile isSpc).reverse = stripL w
  rw [h1, h2, List.reverse_reverse]

theorem containsB_cons_false (pat : Str) (c : Char) (t : Str)
    (h : containsB pat (c :: t) = false) : containsB pat t = false := by
  rw [containsB] at h
  revert h
  cases containsB pat t <;> simp

theorem containsB_stripL_false (pat z : Str) (h : containsB pat z = false) :
    containsB pat (stripL z) = false := by
  by_contra hne
  have htrue : containsB pat (stripL z) = true := by
    revert hne; cases containsB pat (stripL z) <;> simp
  rw [stripL_decomp z, containsB_decomp _ _ _ _ htrue] at h
  exact absurd h (by simp)

theorem containsB_map_stripL_false (pat z : Str)
    (h : containsB pat (z.map Char.toLower) = false) :
    containsB pat ((stripL z).map Char.toLower) = false := by
  by_contra hne
  have htrue : containsB pat ((stripL z).map Char.toLower) = true := by
    revert hne; cases containsB pat ((stripL z).map Char.toLower) <;> simp
  rw [stripL_decomp z] at h
  rw [List.map_append, List.map_append] at h
  rw [containsB_decomp _ _ _ _ htrue] at h
  exact absurd h (by simp)

/-- Collapsing never yields three consecutive newlines; with a pending run of
`n` emitted newlines the output's head run is correspondingly constrained. -/
theorem collGo_noT3 : ∀ (n : Nat) (l : Str),
    containsB (lstr "\n\n\n") (collGo n l) = false ∧
    (2 ≤ n → (collGo n l).head? ≠ some '\n') ∧
    (1 ≤ n → isPreB (lstr "\n\n") (collGo n l) = false) := by
  intro n l
  induction n, l using collGo.induct with
  | case1 x =>
    refine ⟨rfl, ?_, ?_⟩ <;> intro _ <;> simp [collGo, isPreB]
  | case2 n rest hn ih =>
    rw [collGo, if_pos hn]
    exact ⟨ih.1, fun _ => ih.2.1 (by omega), fun _ => ih.2.2 (by omega)⟩
  | case3 n rest hn ih =>
    rw [collGo, if_neg hn]
    refine ⟨?_, ?_, ?_⟩
    · rw [containsB, ih.1]
      have hp : isPreB (lstr "\n\n\n") ('\n' :: collGo (n+1) rest) = false := by
        show (('\n' : Char) == '\n' && isPreB (lstr "\n\n") (collGo (n+1) rest)) = false
        rw [ih.2.2 (by omega)]
        simp
      rw [hp]
      rfl
    · intro h2
      omega
    · intro _
      show (('\n' : Char) == '\n' && isPreB (lstr "\n") (collGo (n+1) rest)) = false
      have hh := ih.2.1 (by omega)
      cases hc : collGo (n+1) rest with
      | nil => rfl
      | cons a b =>
        rw [hc] at hh
        have ha : ('\n' : Char) ≠ a := by
          intro he
          exact hh (by rw [← he]; rfl)
        show (('\n' : Char) == '\n' && ((('\n' : Char) == a) && isPreB [] b)) = false
        rw [show (('\n' : Char) == a) = false from beq_eq_false_iff_ne.mpr ha]
        simp
  | case4 x c rest hc ih =>
    rw [collGo.eq_3 x c rest hc]
    have hcb : (('\n' : Char) == c) = false :=
      beq_eq_false_iff_ne.mpr (fun he => hc he.symm)
    refine ⟨?_, ?_, ?_⟩
    · rw [containsB, ih.1]
      have hp : isPreB (lstr "\n\n\n") (c :: collGo 0 rest) = false := by
        show (('\n' : Char) == c && isPreB (lstr "\n\n") (collGo 0 rest)) = false
        rw [hcb]
        simp
      rw [hp]
      rfl
    · intro _
      simp only [List.head?_cons]
      intro he
      injection he with he'
      exact hc he'
    · intro _
      show (('\n' : Char) == c && isPreB (lstr "\n") (collGo 0 rest)) = false
      rw [hcb]
      simp

theorem collGo_id : ∀ (n : Nat) (l : Str),
    containsB (lstr "\n\n\n") (List.replicate (min n 2) '\n' ++ l) = false →
    collGo n l = l := by
  intro n l
  induction n, l using collGo.induct with
  | case1 x => intro _; rfl
  | case2 n rest hn ih =>
    intro h
    exfalso
    have hmin : min n 2 = 2 := by omega
    rw [hmin] at h
    have hpre : isPreB (lstr "\n\n\n") (List.replicate 2 '\n' ++ '\n' :: rest) = true := by
      show isPreB (lstr "\n\n\n") ('\n' :: '\n' :: '\n' :: rest) = true
      rfl
    rw [containsB_of_isPreB _ _ hpre] at h
    exact absurd h (by simp)
  | case3 n rest hn ih =>
    intro h
    rw [collGo, if_neg hn]
    congr 1
    apply ih
    have hrw : List.replicate (min n 2) '\n' ++ '\n' :: rest =
        List.replicate (min (n+1) 2) '\n' ++ rest := by
      have h1 : min n 2 = n := by omega
      have h2 : min (n+1) 2 = n + 1 := by omega
      rw [h1, h2, List.replicate_succ', List.append_assoc]
      rfl
    rw [hrw] at h
    exact h
  | case4 x c rest hc ih =>
    intro h
    rw [collGo.eq_3 x c rest hc]
    congr 1
    apply ih
    have h2 := containsB_false_of_append (lstr "\n\n\n")
      (List.replicate (min x 2) '\n' ++ [c]) rest
      (by rw [List.append_assoc, List.singleton_append]; exact h)
    simpa using h2

theorem isPreB_map_collGo : ∀ (n : Nat) (l : Str) (q : Str), '\n' ∉ q → q ≠ [] →
    isPreB q ((collGo n l).map Char.toLower) = true →
    isPreB q ((l.dropWhile (· == '\n')).map Char.toLower) = true := by
  intro n l
  induction n, l using collGo.induct with
  | case1 x =>
    intro q hq hqne h
    cases q with
    | nil => exact absurd rfl hqne
    | cons p ps => simpa using h
  | case2 n rest hn ih =>
    intro q hq hqne h
    rw [collGo, if_pos hn] at h
    have hres := ih q hq hqne h
    rw [show ('\n' :: rest).dropWhile (· == '\n') = rest.dropWhile (· == '\n') by
      rw [List.dropWhile_cons]; simp]
    exact hres
  | case3 n rest hn ih =>
    intro q hq hqne h
    rw [collGo, if_neg hn] at h
    exfalso
    cases q with
    | nil => exact hqne rfl
    | cons p ps =>
      rw [List.map_cons] at h
      have hhd := (Bool.and_eq_true_iff.mp h).1
      rw [show Char.toLower '\n' = '\n' from rfl] at hhd
      exact hq (List.mem_cons.mpr (Or.inl (beq_iff_eq.mp hhd).symm))
  | case4 x c rest hc ih =>
    intro q hq hqne h
    rw [collGo.eq_3 x c rest hc] at h
    rw [List.map_cons] at h
    cases q with
    | nil => exact absurd rfl hqne
    | cons p ps =>
      have h1 := (Bool.and_eq_true_iff.mp h).1
      have h2 := (Bool.and_eq_true_iff.mp h).2
      rw [show (c :: rest).dropWhile (· == '\n') = c :: rest by
        rw [List.dropWhile_cons,
          show ((c == '\n') = false) from beq_eq_false_iff_ne.mpr (fun he => hc he)]
        simp]
      rw [List.map_cons]
      show (p == Char.toLower c && isPreB ps (rest.map Char.toLower)) = true
      rw [h1]
      cases hps : ps with
      | nil => simp [isPreB_nil]
      | cons p2 ps2 =>
        rw [hps] at h2
        cases rest with
        | nil => simp [isPreB] at h2
        | cons d r2 =>
          by_cases hd : d = '\n'
          · exfalso
            rw [hd] at h2
            rw [show collGo 0 ('\n' :: r2) = '\n' :: collGo 1 r2 from rfl] at h2
            rw [List.map_cons] at h2
            have hhd := (Bool.and_eq_true_iff.mp h2).1
            rw [show Char.toLower '\n' = '\n' from rfl] at hhd
            exact hq (List.mem_cons.mpr (Or.inr (by
              rw [hps]
              exact List.mem_cons.mpr (Or.inl (beq_iff_eq.mp hhd).symm))))
          · have hs := ih ps (fun hm => hq (List.mem_cons_of_mem p hm))
              (by rw [hps]; simp) (by rw [hps]; exact h2)
            have hdw : (d :: r2).dropWhile (· == '\n') = d :: r2 := by
              rw [List.dropWhile_cons,
                show ((d == '\n') = false) from beq_eq_false_iff_ne.mpr hd]
              simp
            rw [hdw] at hs
            rw [hps] at hs
            simpa using hs

theorem containsB_map_collGo : ∀ (n : Nat) (l : Str) (pat : Str), '\n' ∉ pat → pat ≠ [] →
    containsB pat ((collGo n l).map Char.toLower) = true →
    containsB pat (l.map Char.toLower) = true := by
  intro n l
  induction n, l using collGo.induct with
  | case1 x => intro pat hp hpne h; exact h
  | case2 n rest hn ih =>
    intro pat hp hpne h
    rw [collGo, if_pos hn] at h
    rw [List.map_cons]
    exact containsB_cons_of _ _ _ (ih pat hp hpne h)
  | case3 n rest hn ih =>
    intro pat hp hpne h
    rw [collGo, if_neg hn] at h
    rw [List.map_cons, containsB] at h
    rcases Bool.or_eq_true_iff.mp h with h1 | h2
    · exfalso
      cases pat with
      | nil => exact hpne rfl
      | cons p ps =>
        have hhd := (Bool.and_eq_true_iff.mp h1).1
        rw [show Char.toLower '\n' = '\n' from rfl] at hhd
        exact hp (List.mem_cons.mpr (Or.inl (beq_iff_eq.mp hhd).symm))
    · rw [List.map_cons]
      exact containsB_cons_of _ _ _ (ih pat hp hpne h2)
  | case4 x c rest hc ih =>
    intro pat hp hpne h
    rw [collGo.eq_3 x c rest hc] at h
    rw [List.map_cons, containsB] at h
    rcases Bool.or_eq_true_iff.mp h with h1 | h2
    · cases pat with
      | nil => exact absurd rfl hpne
      | cons p ps =>
        have hA := (Bool.and_eq_true_iff.mp h1).1
        have hB := (Bool.and_eq_true_iff.mp h1).2
        rw [List.map_cons, containsB]
        apply Bool.or_eq_true_iff.mpr
        left
        show (p == Char.toLower c && isPreB ps (rest.map Char.toLower)) = true
        rw [hA]
        cases hps : ps with
        | nil => simp [isPreB_nil]
        | cons p2 ps2 =>
          rw [hps] at hB
          cases rest with
          | nil => simp [isPreB] at hB
          | cons d r2 =>
            by_cases hd : d = '\n'
            · exfalso
              rw [hd] at hB
              rw [show collGo 0 ('\n' :: r2) = '\n' :: collGo 1 r2 from rfl] at hB
              rw [List.map_cons] at hB
              have hhd := (Bool.and_eq_true_iff.mp hB).1
              rw [show Char.toLower '\n' = '\n' from rfl] at hhd
              exact hp (List.mem_cons.mpr (Or.inr (by
                rw [hps]
                exact List.mem_cons.mpr (Or.inl (beq_iff_eq.mp hhd).symm))))
            · have hs := isPreB_map_collGo 0 (d :: r2) ps
                (fun hm => hp (List.mem_cons_of_mem p hm))
                (by rw [hps]; simp) (by rw [hps]; exact hB)
              have hdw : (d :: r2).dropWhile (· == '\n') = d :: r2 := by
                rw [List.dropWhile_cons,
                  show ((d == '\n') = false) from beq_eq_false_iff_ne.mpr hd]
                simp
              rw [hdw] at hs
              rw [hps] at hs
              simpa using hs
    · rw [List.map_cons]
      exact containsB_cons_of _ _ _ (ih pat hp hpne h2)

theorem takeWhile_eq_nil_of_not_mem (x : Char) (r : Str) (h : x ∉ r) :
    r.takeWhile (· == x) = [] := by
  cases r with
  | nil => rfl
  | cons a t =>
    rw [List.takeWhile_cons,
      show ((a == x) = false) from beq_eq_false_iff_ne.mpr
        (fun he => h (List.mem_cons.mpr (Or.inl he.symm)))]
    simp

theorem mem_collGo : ∀ (n : Nat) (l : Str) (c : Char), c ∈ collGo n l → c ∈ l := by
  intro n l
  induction n, l using collGo.induct with
  | case1 x => intro c hc; exact hc
  | case2 n rest hn ih =>
    intro c hc
    rw [collGo, if_pos hn] at hc
    exact List.mem_cons_of_mem _ (ih c hc)
  | case3 n rest hn ih =>
    intro c hc
    rw [collGo, if_neg hn] at hc
    rcases List.mem_cons.mp hc with h1 | h2
    · exact List.mem_cons.mpr (Or.inl h1)
    · exact List.mem_cons_of_mem _ (ih c h2)
  | case4 x c0 rest hc0 ih =>
    intro c hc
    rw [collGo.eq_3 x c0 rest hc0] at hc
    rcases List.mem_cons.mp hc with h1 | h2
    · exact List.mem_cons.mpr (Or.inl h1)
    · exact List.mem_cons_of_mem _ (ih c h2)

theorem isPreB_collGo : ∀ (n : Nat) (l : Str) (q : Str), '\n' ∉ q → q ≠ [] →
    isPreB q (collGo n l) = true →
    isPreB q (l.dropWhile (· == '\n')) = true := by
  intro n l
  induction n, l using collGo.induct with
  | case1 x =>
    intro q hq hqne h
    exact h
  | case2 n rest hn ih =>
    intro q hq hqne h
    rw [collGo, if_pos hn] at h
    have hres := ih q hq hqne h
    rw [show ('\n' :: rest).dropWhile (· == '\n') = rest.dropWhile (· == '\n') by
      rw [List.dropWhile_cons]; simp]
    exact hres
  | case3 n rest hn ih =>
    intro q hq hqne h
    rw [collGo, if_neg hn] at h
    exfalso
    cases q with
    | nil => exact hqne rfl
    | cons p ps =>
      have hhd := (Bool.and_eq_true_iff.mp h).1
      exact hq (List.mem_cons.mpr (Or.inl (beq_iff_eq.mp hhd).symm))
  | case4 x c rest hc ih =>
    intro q hq hqne h
    rw [collGo.eq_3 x c rest hc] at h
    cases q with
    | nil => exact absurd rfl hqne
    | cons p ps =>
      have h1 := (Bool.and_eq_true_iff.mp h).1
      have h2 := (Bool.and_eq_true_iff.mp h).2
      rw [show (c :: rest).dropWhile (· == '\n') = c :: rest by
        rw [List.dropWhile_cons,
          show ((c == '\n') = false) from beq_eq_false_iff_ne.mpr (fun he => hc he)]
        simp]
      show (p == c && isPreB ps rest) = true
      rw [h1]
      cases hps : ps with
      | nil => simp [isPreB_nil]
      | cons p2 ps2 =>
        rw [hps] at h2
        cases rest with
        | nil =>
          rw [show collGo 0 ([] : Str) = [] from rfl] at h2
          simp [isPreB] at h2
        | cons d r2 =>
          by_cases hd : d = '\n'
          · exfalso
            rw [hd] at h2
            rw [show collGo 0 ('\n' :: r2) = '\n' :: collGo 1 r2 from rfl] at h2
            have hhd := (Bool.and_eq_true_iff.mp h2).1
            exact hq (List.mem_cons.mpr (Or.inr (by
              rw [hps]
              exact List.mem_cons.mpr (Or.inl (beq_iff_eq.mp hhd).symm))))
          · have hs := ih ps (fun hm => hq (List.mem_cons_of_mem p hm))
              (by rw [hps]; simp) (by rw [hps]; exact h2)
            have hdw : (d :: r2).dropWhile (· == '\n') = d :: r2 := by
              rw [List.dropWhile_cons,
                show ((d == '\n') = false) from beq_eq_false_iff_ne.mpr hd]
              simp
            rw [hdw] at hs
            rw [hps] at hs
            simpa using hs

theorem containsB_collGo : ∀ (n : Nat) (l : Str) (pat : Str), '\n' ∉ pat → pat ≠ [] →
    containsB pat (collGo n l) = true → containsB pat l = true := by
  intro n l
  induction n, l using collGo.induct with
  | case1 x => intro pat hp hpne h; exact h
  | case2 n rest hn ih =>
    intro pat hp hpne h
    rw [collGo, if_pos hn] at h
    exact containsB_cons_of _ _ _ (ih pat hp hpne h)
  | case3 n rest hn ih =>
    intro pat hp hpne h
    rw [collGo, if_neg hn] at h
    rw [containsB] at h
    rcases Bool.or_eq_true_iff.mp h with h1 | h2
    · exfalso
      cases pat with
      | nil => exact hpne rfl
      | cons p ps =>
        have hhd := (Bool.and_eq_true_iff.mp h1).1
        exact hp (List.mem_cons.mpr (Or.inl (beq_iff_eq.mp hhd).symm))
    · exact containsB_cons_of _ _ _ (ih pat hp hpne h2)
  | case4 x c rest hc ih =>
    intro pat hp hpne h
    rw [collGo.eq_3 x c rest hc] at h
    rw [containsB] at h
    rcases Bool.or_eq_true_iff.mp h with h1 | h2
    · cases pat with
      | nil => exact absurd rfl hpne
      | cons p ps =>
        have hA := (Bool.and_eq_true_iff.mp h1).1
        have hB := (Bool.and_eq_true_iff.mp h1).2
        rw [containsB]
        apply Bool.or_eq_true_iff.mpr
        left
        show (p == c && isPreB ps rest) = true
        rw [hA]
        cases hps : ps with
        | nil => simp [isPreB_nil]
        | cons p2 ps2 =>
          rw [hps] at hB
          cases rest with
          | nil =>
            rw [show collGo 0 ([] : Str) = [] from rfl] at hB
            simp [isPreB] at hB
          | cons d r2 =>
            by_cases hd : d = '\n'
            · exfalso
              rw [hd] at hB
              rw [show collGo 0 ('\n' :: r2) = '\n' :: collGo 1 r2 from rfl] at hB
              have hhd := (Bool.and_eq_true_iff.mp hB).1
              exact hp (List.mem_cons.mpr (Or.inr (by
                rw [hps]
                exact List.mem_cons.mpr (Or.inl (beq_iff_eq.mp hhd).symm))))
            · have hs := isPreB_collGo 0 (d :: r2) ps
                (fun hm => hp (List.mem_cons_of_mem p hm))
                (by rw [hps]; simp) (by rw [hps]; exact hB)
              have hdw : (d :: r2).dropWhile (· == '\n') = d :: r2 := by
                rw [List.dropWhile_cons,
                  show ((d == '\n') = false) from beq_eq_false_iff_ne.mpr hd]
                simp
              rw [hdw] at hs
              rw [hps] at hs
              simpa using hs
    · exact containsB_cons_of _ _ _ (ih pat hp hpne h2)

theorem replCRLF_id : ∀ (l : Str), '\r' ∉ l → replCRLF l = l := by
  intro l
  induction l using replCRLF.induct with
  | case1 rest ih => intro h; exact absurd (List.mem_cons_self _ _) h
  | case2 c rest hc ih =>
    intro h
    rw [replCRLF.eq_2 c rest hc]
    exact congrArg (c :: ·) (ih (fun hm => h (List.mem_cons_of_mem c hm)))
  | case3 => intro _; rfl

theorem lineSubF_id (m : Str → Option (Char × Str)) : ∀ (l : Str),
    (∀ t, t <:+ l → m t = none) → ∀ (fuel : Nat) (prev : Option Char),
    lineSubF m fuel prev l = l := by
  intro l
  induction l with
  | nil => intro _ fuel prev; cases fuel <;> rfl
  | cons c rest ih =>
    intro h fuel prev
    cases fuel with
    | zero => rfl
    | succ fuel' =>
      rw [lineSubF]
      by_cases hp : prev = none ∨ prev = some '\n'
      · rw [if_pos hp, h (c :: rest) (List.suffix_refl _)]
        exact congrArg (c :: ·)
          (ih (fun t ht => h t (ht.trans (List.suffix_cons c rest))) fuel' (some c))
      · rw [if_neg hp]
        exact congrArg (c :: ·)
          (ih (fun t ht => h t (ht.trans (List.suffix_cons c rest))) fuel' (some c))

theorem lineSub_id (m : Str → Option (Char × Str)) (l : Str)
    (h : ∀ t, t <:+ l → m t = none) : lineSub m l = l := by
  unfold lineSub
  exact lineSubF_id m l h l.length none

theorem matchHeadingAt_none (t : Str) (h : '#' ∉ t) : matchHeadingAt t = none := by
  simp only [matchHeadingAt, spanB]
  by_cases hw : 3 < (t.takeWhile isSpc).length
  · rw [if_pos hw]
  · rw [if_neg hw]
    rw [takeWhile_eq_nil_of_not_mem '#' _ (fun hm => h (mem_of_mem_dropWhile _ _ _ hm))]
    rfl

theorem matchHrAt_none_of_not_mem (x : Char) (t : Str) (h : x ∉ t) :
    matchHrAt x t = none := by
  simp only [matchHrAt, spanB]
  rw [takeWhile_eq_nil_of_not_mem x _ (fun hm => h (mem_of_mem_dropWhile _ _ _ hm))]
  rfl

theorem containsB_dashes (r : Str) (h3 : 3 ≤ (r.takeWhile (· == '-')).length) :
    containsB (lstr "---") r = true := by
  rcases hw : r.takeWhile (· == '-') with _ | ⟨d1, _ | ⟨d2, _ | ⟨d3, rest⟩⟩⟩
  · rw [hw] at h3; simp at h3
  · rw [hw] at h3; simp at h3
  · rw [hw] at h3; simp at h3
  · have hm1 : d1 ∈ r.takeWhile (· == '-') := by
      rw [hw]; exact List.mem_cons_self _ _
    have hm2 : d2 ∈ r.takeWhile (· == '-') := by
      rw [hw]; exact List.mem_cons.mpr (Or.inr (List.mem_cons_self _ _))
    have hm3 : d3 ∈ r.takeWhile (· == '-') := by
      rw [hw]
      exact List.mem_cons.mpr (Or.inr (List.mem_cons.mpr (Or.inr (List.mem_cons_self _ _))))
    have hd1 := List.mem_takeWhile_imp hm1
    have hd2 := List.mem_takeWhile_imp hm2
    have hd3 := List.mem_takeWhile_imp hm3
    obtain rfl := beq_iff_eq.mp hd1
    obtain rfl := beq_iff_eq.mp hd2
    obtain rfl := beq_iff_eq.mp hd3
    have hpre : isPreB (lstr "---") (r.takeWhile (· == '-')) = true := by
      rw [hw]
      show ('-' == '-' && ('-' == '-' && ('-' == '-' && isPreB [] rest))) = true
      simp [isPreB_nil]
    have hsplit := @List.takeWhile_append_dropWhile _ (fun c => c == '-') r
    conv_lhs => rw [← hsplit]
    exact containsB_of_isPreB _ _ (isPreB_append_right _ _ _ hpre)

theorem matchHrAt_dash_none (t : Str) (h : containsB (lstr "---") t = false) :
    matchHrAt '-' t = none := by
  simp only [matchHrAt, spanB]
  by_cases hlen : ((t.dropWhile isSpc).takeWhile (· == '-')).length < 3
  · rw [if_pos hlen]
  · exfalso
    have hge : 3 ≤ ((t.dropWhile isSpc).takeWhile (· == '-')).length := by omega
    have hc := containsB_dashes _ hge
    have hsplit := @List.takeWhile_append_dropWhile _ isSpc t
    rw [← hsplit] at h
    rw [containsB_append_left _ _ _ hc] at h
    exact absurd h (by simp)

theorem ciPre_none_of_ci_false (pat l : Str) (h : containsCI pat l = false) :
    ciPre pat l = none := by
  cases hc : ciPre pat l with
  | none => rfl
  | some r =>
    rw [containsCI_of_ciPre pat l r hc] at h
    exact absurd h (by simp)

theorem matchCiLineAt_none (pat t : Str) (h : containsCI pat t = false) :
    matchCiLineAt pat t = none := by
  simp only [matchCiLineAt, spanB]
  rw [ciPre_none_of_ci_false pat _
    (containsCI_suffix_false pat (List.dropWhile_suffix isSpc) h)]

theorem metaAlt_false (l : Str)
    (h1 : containsCI (lstr "transitioning from previous slide") l = false)
    (h2 : containsCI (lstr "wait for questions") l = false)
    (h3 : containsCI (lstr "instructor note") l = false)
    (h4 : containsCI (lstr "slide transition") l = false)
    (h5 : containsCI (lstr "pause here") l = false) :
    metaAlt l = false := by
  rw [metaAlt, ciPre_none_of_ci_false _ _ h1, ciPre_none_of_ci_false _ _ h2,
    ciPre_none_of_ci_false _ _ h3, ciPre_none_of_ci_false _ _ h4,
    ciPre_none_of_ci_false _ _ h5]
  rfl

theorem subParenF_id (openc close : Char) : ∀ (l : Str), openc ∉ l →
    ∀ (fuel : Nat), subParenF openc close fuel l = l := by
  intro l
  induction l with
  | nil => intro _ fuel; cases fuel <;> rfl
  | cons c rest ih =>
    intro h fuel
    cases fuel with
    | zero => rfl
    | succ fuel' =>
      rw [subParenF]
      rw [if_neg (fun hb : (c == openc) = true =>
        h (List.mem_cons.mpr (Or.inl (beq_iff_eq.mp hb).symm)))]
      exact congrArg (c :: ·) (ih (fun hm => h (List.mem_cons_of_mem c hm)) fuel')

theorem subParen_id (openc close : Char) (l : Str) (h : openc ∉ l) :
    subParen openc close l = l := by
  unfold subParen
  exact subParenF_id openc close l h l.length

theorem subItalicsF_id : ∀ (l : Str), '*' ∉ l → ∀ (fuel : Nat) (prev : Option Char),
    subItalicsF fuel prev l = l := by
  intro l
  induction l with
  | nil => intro _ fuel prev; cases fuel <;> rfl
  | cons c rest ih =>
    intro h fuel prev
    cases fuel with
    | zero => rfl
    | succ fuel' =>
      rw [subItalicsF.eq_4 prev fuel' c rest
        (fun he => h (List.mem_cons.mpr (Or.inl he.symm)))]
      exact congrArg (c :: ·) (ih (fun hm => h (List.mem_cons_of_mem c hm)) fuel' (some c))

theorem subItalics_id (l : Str) (h : '*' ∉ l) : subItalics l = l := by
  unfold subItalics
  exact subItalicsF_id l h l.length none

theorem subBoldDirF_id (openc close : Char) : ∀ (l : Str), '*' ∉ l →
    ∀ (fuel : Nat), subBoldDirF openc close fuel l = l := by
  intro l
  induction l with
  | nil => intro _ fuel; cases fuel <;> rfl
  | cons c rest ih =>
    intro h fuel
    cases fuel with
    | zero => rfl
    | succ fuel' =>
      rw [subBoldDirF.eq_4 openc close fuel' c rest
        (fun _ he _ => h (List.mem_cons.mpr (Or.inl he.symm)))]
      exact congrArg (c :: ·) (ih (fun hm => h (List.mem_cons_of_mem c hm)) fuel')

theorem subBoldDir_id (openc close : Char) (l : Str) (h : '*' ∉ l) :
    subBoldDir openc close l = l := by
  unfold subBoldDir
  exact subBoldDirF_id openc close l h l.length

theorem subMetaF_id : ∀ (l : Str), (∀ t, t <:+ l → metaAlt t = false) →
    ∀ (fuel : Nat) (prev : Option Char), subMetaF fuel prev l = l := by
  intro l
  induction l with
  | nil => intro _ fuel prev; cases fuel <;> rfl
  | cons c rest ih =>
    intro h fuel prev
    cases fuel with
    | zero => rfl
    | succ fuel' =>
      cases prev with
      | none =>
        rw [subMetaF.eq_3, h (c :: rest) (List.suffix_refl _), Bool.and_false,
          if_neg (by simp)]
        exact congrArg (c :: ·)
          (ih (fun t ht => h t (ht.trans (List.suffix_cons c rest))) fuel' (some c))
      | some p =>
        rw [subMetaF.eq_4, h (c :: rest) (List.suffix_refl _), Bool.and_false,
          if_neg (by simp)]
        exact congrArg (c :: ·)
          (ih (fun t ht => h t (ht.trans (List.suffix_cons c rest))) fuel' (some c))

theorem subMeta_id (l : Str) (h : ∀ t, t <:+ l → metaAlt t = false) :
    subMeta l = l := by
  unfold subMeta
  exact subMetaF_id l h l.length none

/-- On input free of the constructs that any of the fourteen rewriting stages
could fire on, `clean_text` reduces to strip, newline-collapse, strip. -/
theorem cleanText_benign (x : Str)
    (h1 : '\r' ∉ x) (h2 : '#' ∉ x) (h3 : '*' ∉ x) (h4 : '(' ∉ x) (h5 : '[' ∉ x)
    (h6 : containsB (lstr "---") x = false)
    (h7 : containsCI (lstr "transitioning from previous slide") x = false)
    (h8 : containsCI (lstr "wait for questions") x = false)
    (h9 : containsCI (lstr "instructor note") x = false)
    (h10 : containsCI (lstr "slide transition") x = false)
    (h11 : containsCI (lstr "pause here") x = false)
    (h12 : containsCI (lstr "certainly!") x = false)
    (h13 : containsCI patHeres x = false)
    (h14 : containsCI (lstr "this comprehensive script should facilitate") x = false) :
    clean_text x = stripL (collGo 0 (stripL x)) := by
  have hsub : ∀ c, c ∈ stripL x → c ∈ x := fun c hc => mem_of_mem_stripL x c hc
  have e1 : lineSub matchHeadingAt (stripL x) = stripL x :=
    lineSub_id _ _ (fun t ht =>
      matchHeadingAt_none t (fun hm => h2 (hsub _ (ht.subset hm))))
  have e2 : lineSub (matchHrAt '-') (stripL x) = stripL x :=
    lineSub_id _ _ (fun t ht => matchHrAt_dash_none t (by
      rcases ht with ⟨a, ha⟩
      exact containsB_false_of_append _ a t
        (by rw [ha]; exact containsB_stripL_false _ _ h6)))
  have e3 : lineSub (matchHrAt '*') (stripL x) = stripL x :=
    lineSub_id _ _ (fun t ht =>
      matchHrAt_none_of_not_mem '*' t (fun hm => h3 (hsub _ (ht.subset hm))))
  have e4 : subBoldDir '(' ')' (stripL x) = stripL x :=
    subBoldDir_id _ _ _ (fun hm => h3 (hsub _ hm))
  have e5 : subBoldDir '[' ']' (stripL x) = stripL x :=
    subBoldDir_id _ _ _ (fun hm => h3 (hsub _ hm))
  have e6 : subItalics (stripL x) = stripL x :=
    subItalics_id _ (fun hm => h3 (hsub _ hm))
  have e7 : subParen '(' ')' (stripL x) = stripL x :=
    subParen_id _ _ _ (fun hm => h4 (hsub _ hm))
  have e8 : subParen '[' ']' (stripL x) = stripL x :=
    subParen_id _ _ _ (fun hm => h5 (hsub _ hm))
  have e9 : subMeta (stripL x) = stripL x :=
    subMeta_id _ (fun t ht => metaAlt_false t
      (containsCI_suffix_false _ ht (containsB_map_stripL_false _ x h7))
      (containsCI_suffix_false _ ht (containsB_map_stripL_false _ x h8))
      (containsCI_suffix_false _ ht (containsB_map_stripL_false _ x h9))
      (containsCI_suffix_false _ ht (containsB_map_stripL_false _ x h10))
      (containsCI_suffix_false _ ht (containsB_map_stripL_false _ x h11)))
  have e10 : lineSub (matchCiLineAt (lstr "certainly!")) (stripL x) = stripL x :=
    lineSub_id _ _ (fun t ht => matchCiLineAt_none _ t
      (containsCI_suffix_false _ ht (containsB_map_stripL_false _ x h12)))
  have e11 : lineSub (matchCiLineAt patHeres) (stripL x) = stripL x :=
    lineSub_id _ _ (fun t ht => matchCiLineAt_none _ t
      (containsCI_suffix_false _ ht (containsB_map_stripL_false _ x h13)))
  have e12 : lineSub (matchCiLineAt
      (lstr "this comprehensive script should facilitate")) (stripL x) = stripL x :=
    lineSub_id _ _ (fun t ht => matchCiLineAt_none _ t
      (containsCI_suffix_false _ ht (containsB_map_stripL_false _ x h14)))
  simp only [clean_text]
  rw [replCRLF_id x h1, e1, e2, e3, e4, e5, e6, e7, e8, e9, e10, e11, e12]
  apply List.filter_eq_self.mpr
  intro a ha
  have hax : a ∈ x :=
    mem_of_mem_stripL x a (mem_collGo 0 _ a (mem_of_mem_stripL _ a ha))
  exact bne_iff_ne.mpr (fun he => h3 (he ▸ hax))

/-- C4 (amended): text normalization is idempotent on every input that is free
of the characters and phrases any rewriting stage of `clean_text` can fire on:
no `\r`, `#`, `*`, `(`, `[`, no `---` substring, and none of the
case-insensitive meta/boilerplate phrases.  On such input a pass reduces to
strip / newline-collapse / strip, and a second pass changes nothing:
`clean_text (clean_text x) = clean_text x`. -/
theorem cleanText_idempotent_amended (x : Str)
    (h1 : '\r' ∉ x) (h2 : '#' ∉ x) (h3 : '*' ∉ x) (h4 : '(' ∉ x) (h5 : '[' ∉ x)
    (h6 : containsB (lstr "---") x = false)
    (h7 : containsCI (lstr "transitioning from previous slide") x = false)
    (h8 : containsCI (lstr "wait for questions") x = false)
    (h9 : containsCI (lstr "instructor note") x = false)
    (h10 : containsCI (lstr "slide transition") x = false)
    (h11 : containsCI (lstr "pause here") x = false)
    (h12 : containsCI (lstr "certainly!") x = false)
    (h13 : containsCI patHeres x = false)
    (h14 : containsCI (lstr "this comprehensive script should facilitate") x = false) :
    clean_text (clean_text x) = clean_text x := by
  have hp1 := cleanText_benign x h1 h2 h3 h4 h5 h6 h7 h8 h9 h10 h11 h12 h13 h14
  have hysub : ∀ c, c ∈ stripL (collGo 0 (stripL x)) → c ∈ x := fun c hc =>
    mem_of_mem_stripL x c (mem_collGo 0 _ c (mem_of_mem_stripL _ c hc))
  have hCI : ∀ pat : Str, '\n' ∉ pat → pat ≠ [] → containsCI pat x = false →
      containsCI pat (stripL (collGo 0 (stripL x))) = false := by
    intro pat hnl hne hfx
    have s1 : containsB pat ((stripL x).map Char.toLower) = false :=
      containsB_map_stripL_false pat x hfx
    have s2 : containsB pat ((collGo 0 (stripL x)).map Char.toLower) = false := by
      by_contra hc
      have hc' : containsB pat ((collGo 0 (stripL x)).map Char.toLower) = true := by
        revert hc; cases containsB pat ((collGo 0 (stripL x)).map Char.toLower) <;> simp
      rw [containsB_map_collGo 0 (stripL x) pat hnl hne hc'] at s1
      exact absurd s1 (by simp)
    exact containsB_map_stripL_false pat _ s2
  have hDash : containsB (lstr "---") (stripL (collGo 0 (stripL x))) = false := by
    have s1 := containsB_stripL_false _ x h6
    have s2 : containsB (lstr "---") (collGo 0 (stripL x)) = false := by
      by_contra hc
      have hc' : containsB (lstr "---") (collGo 0 (stripL x)) = true := by
        revert hc; cases containsB (lstr "---") (collGo 0 (stripL x)) <;> simp
      rw [containsB_collGo 0 (stripL x) _ (by decide) (by decide) hc'] at s1
      exact absurd s1 (by simp)
    exact containsB_stripL_false _ _ s2
  have hp2 := cleanText_benign (stripL (collGo 0 (stripL x)))
    (fun hm => h1 (hysub _ hm)) (fun hm => h2 (hysub _ hm)) (fun hm => h3 (hysub _ hm))
    (fun hm => h4 (hysub _ hm)) (fun hm => h5 (hysub _ hm))
    hDash
    (hCI _ (by decide) (by decide) h7)
    (hCI _ (by decide) (by decide) h8)
    (hCI _ (by decide) (by decide) h9)
    (hCI _ (by decide) (by decide) h10)
    (hCI _ (by decide) (by decide) h11)
    (hCI _ (by decide) (by decide) h12)
    (hCI _ (by decide) (by decide) h13)
    (hCI _ (by decide) (by decide) h14)
  rw [hp1, hp2]
  have hsy : stripL (stripL (collGo 0 (stripL x))) = stripL (collGo 0 (stripL x)) :=
    stripL_idem _
  rw [hsy]
  have hng : containsB (lstr "\n\n\n") (stripL (collGo 0 (stripL x))) = false :=
    containsB_stripL_false _ _ (collGo_noT3 0 (stripL x)).1
  rw [collGo_id 0 _ (by simpa using hng)]
  exact hsy

/-- C4 amended-theorem witness at a concrete benign input. -/
theorem cleanText_idempotent_amended_witness :
    clean_text (clean_text (lstr "hello world\n\n\nsecond paragraph")) =
      clean_text (lstr "hello world\n\n\nsecond paragraph") :=
  cleanText_idempotent_amended (lstr "hello world\n\n\nsecond paragraph")
    (by decide) (by decide) (by decide) (by decide) (by decide) (by decide)
    (by decide) (by decide) (by decide) (by decide) (by decide) (by decide)
    (by decide) (by decide)

